import Mathlib

/-!
# Forza telemetry server: schema compilation and packet decoding

A shallow embedding of `main.go`.

* The format-file loop of `main` (lines 61-123) is `compileLoop` / `compile`: explicit state
  passing over the variables `startOffset`, `endOffset`, `dataLength`, `telemArray`.
* `readForzaData` (lines 150-208) is `decodeLoop` / `readForzaData`: the 1500-byte buffer, the
  Go slice expression `buffer[:n][T.startOffset:T.endOffset]`, the two reserved names and the
  `switch T.dataType`.

Go values are embedded as follows.

* `int` offsets are `Nat`: they are sums of the widths 1, 2, 4, 12 over the lines of a file,
  never negative and far below `2^63`.
* `byte` is `Fin 256`; `uint32`, `uint16` are `Nat` (the little-endian sums stay below `2^32`,
  `2^16`); `int8` is `Int`; `int64` arithmetic is `Int` wrapped to 64 bits by `wrapInt64`.
* `float32` is carried as its IEEE-754 bit pattern (a `Nat` below `2^32`);
  `math.Float32frombits` only reinterprets bits.
* `log.Fatalf` and run-time panics are results in `Except`.
-/

namespace Forza

/-! ## Data model -/

deriving instance DecidableEq for Except

/-- One byte of a packet. -/
abbrev Byte := Fin 256

/-- The `Telemetry` struct of `main.go`, lines 22-28. -/
structure Telemetry where
  position : Nat
  name : String
  dataType : String
  startOffset : Nat
  endOffset : Nat
  deriving DecidableEq, Repr

/-! ## Go library functions used by the schema loop -/

/-- The Go function `strings.Split(s, sep)` for a one-character separator, on the characters of
`s`: the pieces between consecutive separators, `count sep + 1` of them, never an empty list. -/
def splitChars (sep : Char) : List Char → List (List Char)
  | [] => [[]]
  | c :: cs =>
    if c = sep then [] :: splitChars sep cs
    else
      match splitChars sep cs with
      | [] => [[c]]
      | piece :: rest => (c :: piece) :: rest

/-- The Go call `strings.Split(s, sep)` on strings, `sep` one character. -/
def stringsSplit (s : String) (sep : Char) : List String :=
  (splitChars sep s.toList).map String.mk

/-! ## Schema compilation: `main`, lines 61-123 -/

/-- The two ways the format-file loop stops the process: the run-time panic of `dataFormat[1]`
on a line without a second token (line 71), and `log.Fatalf("Error: Unknown data type ...")`
(line 117). The payload is the loop index `i`. -/
inductive SchemaError where
  | indexOutOfRange (line : Nat)
  | unknownDataType (line : Nat)
  deriving DecidableEq, Repr

/-- The variables the loop of lines 67-123 updates. -/
structure CompileState where
  startOffset : Nat
  endOffset : Nat
  dataLength : Nat
  telemArray : List Telemetry
  deriving DecidableEq, Repr

/-- The state before the loop: lines 61-64. -/
def CompileState.init : CompileState :=
  { startOffset := 0, endOffset := 0, dataLength := 0, telemArray := [] }

/-- The body shared by the seven recognised cases (lines 75-79, 81-85, ...):
`dataLength = w; endOffset = endOffset + dataLength; startOffset = endOffset - dataLength;`
`telemArray = append(telemArray, Telemetry{i, dataName, dataType, startOffset, endOffset})`. -/
def addTelemetry (st : CompileState) (i : Nat) (dataName dataType : String) (w : Nat) :
    CompileState :=
  let dataLength := w
  let endOffset := st.endOffset + dataLength
  let startOffset := endOffset - dataLength
  { startOffset := startOffset
    endOffset := endOffset
    dataLength := dataLength
    telemArray := st.telemArray ++ [⟨i, dataName, dataType, startOffset, endOffset⟩] }

/-- The token `dataClean[0]` split on spaces: `dataFormat` of line 69. -/
def dataFormat (line : String) : List String :=
  stringsSplit ((stringsSplit line ';').headD "") ' '

/-- One iteration of the loop, lines 68-118. -/
def processLine (st : CompileState) (i : Nat) (line : String) :
    Except SchemaError CompileState :=
  let fmt := dataFormat line
  let dataType := fmt.headD ""
  match fmt.get? 1 with
  | none => .error (.indexOutOfRange i)
  | some dataName =>
    if dataType = "s32" then .ok (addTelemetry st i dataName dataType 4)
    else if dataType = "u32" then .ok (addTelemetry st i dataName dataType 4)
    else if dataType = "f32" then .ok (addTelemetry st i dataName dataType 4)
    else if dataType = "u16" then .ok (addTelemetry st i dataName dataType 2)
    else if dataType = "u8" then .ok (addTelemetry st i dataName dataType 1)
    else if dataType = "s8" then .ok (addTelemetry st i dataName dataType 1)
    else if dataType = "hzn" then .ok (addTelemetry st i dataName dataType 12)
    else .error (.unknownDataType i)

/-- The loop `for i, line := range lines`, started at index `i`. -/
def compileLoop : Nat → List String → CompileState → Except SchemaError CompileState
  | _, [], st => .ok st
  | i, line :: rest, st =>
    match processLine st i line with
    | .error e => .error e
    | .ok st1 => compileLoop (i + 1) rest st1

/-- The compiled schema: `telemArray` after the loop over all lines of the format file. -/
def compile (lines : List String) : Except SchemaError (List Telemetry) :=
  match compileLoop 0 lines CompileState.init with
  | .error e => .error e
  | .ok st => .ok st.telemArray

/-! ## Go slices and the byte-order helpers -/

/-- A Go run-time panic raised by `readForzaData`: a slice expression outside `0 ≤ lo ≤ hi ≤ cap`,
or an index expression outside `0 ≤ i < len`. -/
inductive Panic where
  | sliceBoundsOutOfRange
  | indexOutOfRange
  deriving DecidableEq, Repr

/-- A Go `[]byte` value. `arr` is the underlying array from the slice's first element to the
array's end, so the capacity is `arr.length`; `len` is the slice's length. -/
structure GoSlice where
  arr : List Byte
  len : Nat
  deriving DecidableEq, Repr

/-- The Go builtin `cap(s)`. -/
def GoSlice.cap (s : GoSlice) : Nat := s.arr.length

/-- The elements `s[0], ..., s[len-1]` of a slice. -/
def GoSlice.toList (s : GoSlice) : List Byte := s.arr.take s.len

/-- The Go call `make([]byte, size)`: `size` zero bytes, length and capacity `size`. -/
def GoSlice.make (size : Nat) : GoSlice := ⟨List.replicate size 0, size⟩

/-- The Go slice expression `s[lo:hi]` on a slice: it panics unless `lo ≤ hi ≤ cap(s)` (the
upper bound is the capacity, not the length), and yields length `hi - lo` from element `lo`. -/
def GoSlice.slice (s : GoSlice) (lo hi : Nat) : Except Panic GoSlice :=
  if lo ≤ hi ∧ hi ≤ s.cap then .ok ⟨s.arr.drop lo, hi - lo⟩
  else .error .sliceBoundsOutOfRange

/-- The Go index expression `s[i]`: it panics unless `i < len(s)`. -/
def GoSlice.index (s : GoSlice) (i : Nat) : Except Panic Byte :=
  if i < s.len then
    match s.arr.get? i with
    | some b => .ok b
    | none => .error .indexOutOfRange
  else .error .indexOutOfRange

/-- The Go method `binary.LittleEndian.Uint32(b)`:
`_ = b[3]; return uint32(b[0]) | uint32(b[1])<<8 | uint32(b[2])<<16 | uint32(b[3])<<24`. -/
def uint32LE (b : GoSlice) : Except Panic Nat :=
  match b.index 3 with
  | .error e => .error e
  | .ok b3 =>
    match b.index 0, b.index 1, b.index 2 with
    | .ok b0, .ok b1, .ok b2 =>
      .ok (b0.val ||| (b1.val <<< 8) ||| (b2.val <<< 16) ||| (b3.val <<< 24))
    | _, _, _ => .error .indexOutOfRange

/-- The Go method `binary.LittleEndian.Uint16(b)`:
`_ = b[1]; return uint16(b[0]) | uint16(b[1])<<8`. -/
def uint16LE (b : GoSlice) : Except Panic Nat :=
  match b.index 1 with
  | .error e => .error e
  | .ok b1 =>
    match b.index 0 with
    | .ok b0 => .ok (b0.val ||| (b1.val <<< 8))
    | .error e => .error e

/-- The function `Float32frombytes` of `main.go`, lines 236-240: the `float32` whose bit pattern
is `binary.LittleEndian.Uint32(bytes)`. The result is the bit pattern. -/
def Float32frombytes (bytes : GoSlice) : Except Panic Nat :=
  match uint32LE bytes with
  | .error e => .error e
  | .ok bits => .ok bits

/-- The Go conversion `int8(b)` of a byte: the two's-complement reading of its 8 bits. -/
def int8OfByte (b : Byte) : Int :=
  if b.val < 128 then (b.val : Int) else (b.val : Int) - 256

/-- Go `int64` arithmetic: the representative of `x` modulo `2^64` in `[-2^63, 2^63)`. -/
def wrapInt64 (x : Int) : Int := (x + 2 ^ 63) % 2 ^ 64 - 2 ^ 63

/-- The constant `time.Millisecond` (a `time.Duration`, in nanoseconds). -/
def timeMillisecond : Int := 1000000

/-- The Go comparison `f == 0` on a `float32` given by its bit pattern: IEEE-754 equality with
zero holds for `+0` and `-0` (every bit but the sign bit clear) and for nothing else; a NaN is
unequal to everything. -/
def float32EqZero (bits : Nat) : Bool := bits % 2 ^ 31 == 0

/-- The real number a finite `float32` bit pattern denotes (IEEE-754 binary32: 1 sign bit,
8 exponent bits with bias 127, 23 fraction bits); `none` for infinities and NaNs. -/
def float32Value (bits : Nat) : Option ℚ :=
  let s : Nat := bits / 2 ^ 31 % 2
  let e : Nat := bits / 2 ^ 23 % 2 ^ 8
  let m : Nat := bits % 2 ^ 23
  let sign : ℚ := if s = 1 then -1 else 1
  if e = 255 then none
  else if e = 0 then some (sign * (m : ℚ) / 2 ^ 149)
  else some (sign * (2 ^ 23 + (m : ℚ)) * 2 ^ e / 2 ^ 150)

/-- A `float32` bit pattern is a NaN: exponent all ones, fraction non-zero. -/
def float32IsNaN (bits : Nat) : Bool := bits / 2 ^ 23 % 2 ^ 8 == 255 && bits % 2 ^ 23 != 0

/-! ## The measurement point handed to the record sink -/

/-- A value passed to `AddField`, with the Go type it is passed at. -/
inductive FieldValue where
  | uint32 (v : Nat)
  | float32 (bits : Nat)
  | uint16 (v : Nat)
  | uint8 (v : Byte)
  | int8 (v : Int)
  deriving DecidableEq, Repr

/-- The point `p` that `readForzaData` builds: the measurement name, the time of the latest
`SetTime` (nanoseconds after the Unix epoch; `none` before any call), and the `AddField` calls
in the order they were made. -/
structure Point where
  measurement : String
  time : Option Int
  fields : List (String × FieldValue)
  deriving DecidableEq, Repr

/-- The library call `influxdb2.NewPointWithMeasurement(m)`. -/
def NewPointWithMeasurement (m : String) : Point := ⟨m, none, []⟩

/-- The library call `p.SetTime(t)`, `t` in nanoseconds after the Unix epoch. -/
def Point.SetTime (p : Point) (t : Int) : Point := { p with time := some t }

/-- The library call `p.AddField(k, v)`. -/
def Point.AddField (p : Point) (k : String) (v : FieldValue) : Point :=
  { p with fields := p.fields ++ [(k, v)] }

/-- The Go call `time.Unix(sec, nsec)`, as nanoseconds after the Unix epoch. -/
def timeUnix (sec nsec : Int) : Int := sec * 1000000000 + nsec

/-! ## Packet decoding: `readForzaData`, lines 150-208 -/

/-- The size of the receive buffer, line 151. -/
def bufferSize : Nat := 1500

/-- The number `n` that `conn.ReadFromUDP(buffer)` returns for a datagram: the bytes copied into
the buffer, at most its length. -/
def receivedLength (datagram : List Byte) : Nat := min datagram.length bufferSize

/-- The buffer after lines 151-153: `make([]byte, 1500)` with the first `n` bytes overwritten by
the datagram. -/
def receiveBuffer (datagram : List Byte) : GoSlice :=
  ⟨datagram.take bufferSize ++ List.replicate (bufferSize - receivedLength datagram) 0, bufferSize⟩

/-- The variables the loop of lines 168-198 updates: the point `p` and `currentEngineRpm` (a
`float32`, as its bit pattern). -/
structure DecodeState where
  p : Point
  currentEngineRpm : Nat
  deriving DecidableEq, Repr

/-- The state before the loop: lines 163-165. -/
def DecodeState.init : DecodeState := ⟨NewPointWithMeasurement "stat", 0⟩

/-- The reserved-name step, lines 175-180. -/
def reservedStep (st : DecodeState) (T : Telemetry) (data : GoSlice) : Except Panic DecodeState :=
  if T.name = "TimestampMS" then
    match uint32LE data with
    | .error e => .error e
    | .ok timestamp =>
      .ok { st with p := st.p.SetTime (timeUnix 0 (wrapInt64 ((timestamp : Int) * timeMillisecond))) }
  else if T.name = "CurrentEngineRpm" then
    match Float32frombytes data with
    | .error e => .error e
    | .ok f => .ok { st with currentEngineRpm := f }
  else .ok st

/-- The `switch T.dataType` of lines 182-197. The case `"s32"` has an empty body and Go does not
fall through; a `dataType` that matches no case does nothing. -/
def typeSwitch (st : DecodeState) (T : Telemetry) (data : GoSlice) : Except Panic DecodeState :=
  if T.dataType = "s32" then .ok st
  else if T.dataType = "u32" then
    match uint32LE data with
    | .error e => .error e
    | .ok v => .ok { st with p := st.p.AddField T.name (.uint32 v) }
  else if T.dataType = "f32" then
    match Float32frombytes data with
    | .error e => .error e
    | .ok f => .ok { st with p := st.p.AddField T.name (.float32 f) }
  else if T.dataType = "u16" then
    match uint16LE data with
    | .error e => .error e
    | .ok v => .ok { st with p := st.p.AddField T.name (.uint16 v) }
  else if T.dataType = "u8" then
    match data.index 0 with
    | .error e => .error e
    | .ok b => .ok { st with p := st.p.AddField T.name (.uint8 b) }
  else if T.dataType = "s8" then
    match data.index 0 with
    | .error e => .error e
    | .ok b => .ok { st with p := st.p.AddField T.name (.int8 (int8OfByte b)) }
  else .ok st

/-- The slice `data := buffer[:n][T.startOffset:T.endOffset]` of line 169. -/
def fieldData (buffer : GoSlice) (n : Nat) (T : Telemetry) : Except Panic GoSlice :=
  match buffer.slice 0 n with
  | .error e => .error e
  | .ok received => received.slice T.startOffset T.endOffset

/-- One iteration of the loop, lines 169-197. -/
def decodeField (buffer : GoSlice) (n : Nat) (st : DecodeState) (T : Telemetry) :
    Except Panic DecodeState :=
  match fieldData buffer n T with
  | .error e => .error e
  | .ok data =>
    match reservedStep st T data with
    | .error e => .error e
    | .ok st1 => typeSwitch st1 T data

/-- The loop `for i, T := range telemArray` of lines 168-198. -/
def decodeLoop (buffer : GoSlice) (n : Nat) : List Telemetry → DecodeState → Except Panic DecodeState
  | [], st => .ok st
  | T :: rest, st =>
    match decodeField buffer n st T with
    | .error e => .error e
    | .ok st1 => decodeLoop buffer n rest st1

/-- The decoding part of `readForzaData` for one received datagram: lines 151-198. -/
def decode (telemArray : List Telemetry) (datagram : List Byte) : Except Panic DecodeState :=
  decodeLoop (receiveBuffer datagram) (receivedLength datagram) telemArray DecodeState.init

/-- The verdict of lines 203-205: the sample is forwarded unless `currentEngineRpm == 0`. -/
def DecodeState.valid (st : DecodeState) : Bool := !float32EqZero st.currentEngineRpm

/-- The function `readForzaData` for one received datagram, with the record sink as the list of
points written so far and `now` the reading of `time.Now()` at line 207. -/
def readForzaData (telemArray : List Telemetry) (datagram : List Byte) (now : Int)
    (sink : List Point) : Except Panic (List Point) :=
  match decode telemArray datagram with
  | .error e => .error e
  | .ok st =>
    if float32EqZero st.currentEngineRpm then .ok sink
    else .ok (sink ++ [st.p.SetTime now])

/-- The total byte span of a schema: the last descriptor's `endOffset` (0 for no descriptor). -/
def schemaSpan (telemArray : List Telemetry) : Nat :=
  match telemArray.getLast? with
  | none => 0
  | some T => T.endOffset

/-! ## Concrete inputs used by the checks below -/

/-- The schema lines of the end-to-end scenario. -/
def scenarioLines : List String := ["u32 TimestampMS", "f32 CurrentEngineRpm", "u8 Gear"]

/-- The descriptor of `TimestampMS` in the scenario schema. -/
def scenarioTimestamp : Telemetry := ⟨0, "TimestampMS", "u32", 0, 4⟩

/-- The descriptor of `CurrentEngineRpm` in the scenario schema. -/
def scenarioRpm : Telemetry := ⟨1, "CurrentEngineRpm", "f32", 4, 8⟩

/-- The descriptor of `Gear` in the scenario schema. -/
def scenarioGear : Telemetry := ⟨2, "Gear", "u8", 8, 9⟩

/-- The 9-byte packet `E8 03 00 00 | 00 00 80 3F | 03`. -/
def scenarioPacket : List Byte := [0xE8, 0x03, 0x00, 0x00, 0x00, 0x00, 0x80, 0x3F, 0x03]

/-! ## Vocabulary for the statements -/

/-- The type token of a schema line: `dataFormat[0]` (line 70). -/
def typeToken (line : String) : String := (dataFormat line).headD ""

/-- The name token of a schema line: `dataFormat[1]` (line 71), when the line has one. -/
def nameToken (line : String) : Option String := (dataFormat line).get? 1

/-- The recognised type tokens. -/
def knownTypes : List String := ["s32", "u32", "f32", "u16", "u8", "s8", "hzn"]

/-- The fixed width table: `s32 4, u32 4, f32 4, u16 2, u8 1, s8 1, hzn 12`. -/
def typeWidth (t : String) : Option Nat :=
  if t = "s32" then some 4
  else if t = "u32" then some 4
  else if t = "f32" then some 4
  else if t = "u16" then some 2
  else if t = "u8" then some 1
  else if t = "s8" then some 1
  else if t = "hzn" then some 12
  else none

/-- The width a line contributes: the table's width of its type token. -/
def lineWidth (line : String) : Nat := (typeWidth (typeToken line)).getD 0

/-- A line of the form `<type> <name>`: the type token is recognised and a name token exists. -/
def WellFormedLine (line : String) : Prop :=
  typeToken line ∈ knownTypes ∧ (nameToken line).isSome = true

instance (line : String) : Decidable (WellFormedLine line) := by
  unfold WellFormedLine; infer_instance

/-- The descriptors the width table assigns to a list of lines, numbered from `i` and laid out
from byte `off`: each range starts at the running offset and advances it by the width. -/
def layoutFrom : Nat → Nat → List String → List Telemetry
  | _, _, [] => []
  | i, off, line :: rest =>
    ⟨i, (nameToken line).getD "", typeToken line, off, off + lineWidth line⟩ ::
      layoutFrom (i + 1) (off + lineWidth line) rest

/-- The unsigned value of a byte sequence read in little-endian order. -/
def littleEndian : List Byte → Nat
  | [] => 0
  | b :: bs => b.val + 256 * littleEndian bs

/-- The bytes of the buffer that a descriptor's range `[startOffset, endOffset)` covers. -/
def fieldBytes (buf : List Byte) (T : Telemetry) : List Byte :=
  (buf.drop T.startOffset).take (T.endOffset - T.startOffset)

/-- Reference reading of the `switch T.dataType`: the entry a descriptor adds to the point, from
the bytes of its range, computed on lists without slices. -/
def emittedField (bytes : List Byte) (T : Telemetry) : Option (String × FieldValue) :=
  if T.dataType = "u32" then some (T.name, .uint32 (littleEndian (bytes.take 4)))
  else if T.dataType = "f32" then some (T.name, .float32 (littleEndian (bytes.take 4)))
  else if T.dataType = "u16" then some (T.name, .uint16 (littleEndian (bytes.take 2)))
  else if T.dataType = "u8" then bytes.head?.map fun b => (T.name, .uint8 b)
  else if T.dataType = "s8" then bytes.head?.map fun b => (T.name, .int8 (int8OfByte b))
  else none

/-- Reference reading of one loop iteration on a buffer given as a list of bytes. -/
def fieldStep (buf : List Byte) (st : DecodeState) (T : Telemetry) : DecodeState :=
  let bytes := fieldBytes buf T
  let st1 : DecodeState :=
    if T.name = "TimestampMS" then
      { st with p := st.p.SetTime ((littleEndian (bytes.take 4) : Int) * 1000000) }
    else if T.name = "CurrentEngineRpm" then
      { st with currentEngineRpm := littleEndian (bytes.take 4) }
    else st
  match emittedField bytes T with
  | some kv => { st1 with p := st1.p.AddField kv.1 kv.2 }
  | none => st1

/-- A descriptor the loop body handles without a panic: its range is a valid slice of the
1500-byte buffer, it is as wide as the table says for its kind, and it is at least 4 bytes wide
when it carries one of the two reserved names. -/
def FieldFits (T : Telemetry) : Prop :=
  T.startOffset ≤ T.endOffset ∧ T.endOffset ≤ bufferSize ∧
  typeWidth T.dataType = some (T.endOffset - T.startOffset) ∧
  ((T.name = "TimestampMS" ∨ T.name = "CurrentEngineRpm") → 4 ≤ T.endOffset - T.startOffset)

/-- The characters of `dataClean[0]`: the text of a line before its first semicolon. -/
def beforeSemicolon (line : String) : List Char := (splitChars ';' line.toList).headD []

/-- A `float32` bit pattern is a denormal: exponent all zeros, fraction non-zero. -/
def float32IsDenormal (bits : Nat) : Bool := bits / 2 ^ 23 % 2 ^ 8 == 0 && bits % 2 ^ 23 != 0

/-- A datagram extended with zero bytes up to the size of the receive buffer. -/
def zeroPadded (datagram : List Byte) : List Byte :=
  datagram ++ List.replicate (bufferSize - datagram.length) 0

/-! ## Schema compilation: lemmas -/

theorem typeWidth_isSome_iff (t : String) : (typeWidth t).isSome = true ↔ t ∈ knownTypes := by
  unfold typeWidth knownTypes
  by_cases h1 : t = "s32" <;> by_cases h2 : t = "u32" <;> by_cases h3 : t = "f32" <;>
  by_cases h4 : t = "u16" <;> by_cases h5 : t = "u8" <;> by_cases h6 : t = "s8" <;>
  by_cases h7 : t = "hzn" <;> simp [h1, h2, h3, h4, h5, h6, h7]

theorem processLine_wellFormed (st : CompileState) (i : Nat) (line : String)
    (h : WellFormedLine line) :
    processLine st i line =
      .ok (addTelemetry st i ((nameToken line).getD "") (typeToken line) (lineWidth line)) := by
  obtain ⟨ht, hn⟩ := h
  obtain ⟨name, hname⟩ := Option.isSome_iff_exists.mp hn
  have hname2 : (dataFormat line).get? 1 = some name := hname
  unfold processLine
  simp only [hname2]
  simp only [hname, lineWidth, Option.getD_some]
  have ht2 : (dataFormat line).headD "" = typeToken line := rfl
  rw [ht2]
  simp only [knownTypes, List.mem_cons, List.mem_singleton, List.not_mem_nil, or_false] at ht
  rcases ht with h | h | h | h | h | h | h <;> rw [h] <;> simp [typeWidth]

theorem processLine_not_wellFormed (st : CompileState) (i : Nat) (line : String)
    (h : ¬ WellFormedLine line) : ∃ e, processLine st i line = .error e := by
  cases hname : (dataFormat line).get? 1 with
  | none => exact ⟨.indexOutOfRange i, by unfold processLine; simp only [hname]⟩
  | some name =>
    unfold processLine
    simp only [hname]
    have hn : (nameToken line).isSome = true := by
      have : nameToken line = some name := hname
      simp [this]
    have ht : typeToken line ∉ knownTypes := fun hmem => h ⟨hmem, hn⟩
    have ht2 : (dataFormat line).headD "" = typeToken line := rfl
    simp only [ht2]
    simp only [knownTypes, List.mem_cons, List.mem_singleton, List.not_mem_nil, or_false,
      not_or] at ht
    obtain ⟨h1, h2, h3, h4, h5, h6, h7⟩ := ht
    simp [h1, h2, h3, h4, h5, h6, h7]

theorem compileLoop_wellFormed (lines : List String) :
    ∀ (i : Nat) (st : CompileState), (∀ l ∈ lines, WellFormedLine l) →
      ∃ st1, compileLoop i lines st = .ok st1 ∧
        st1.telemArray = st.telemArray ++ layoutFrom i st.endOffset lines ∧
        st1.endOffset = st.endOffset + (lines.map lineWidth).sum := by
  induction lines with
  | nil => intro i st _; exact ⟨st, rfl, by simp [layoutFrom], by simp⟩
  | cons line rest ih =>
    intro i st h
    have hl : WellFormedLine line := h line (List.mem_cons_self _ _)
    have hr : ∀ l ∈ rest, WellFormedLine l := fun l hm => h l (List.mem_cons_of_mem _ hm)
    obtain ⟨st1, h1, h2, h3⟩ := ih (i + 1)
      (addTelemetry st i ((nameToken line).getD "") (typeToken line) (lineWidth line)) hr
    refine ⟨st1, ?_, ?_, ?_⟩
    · simp only [compileLoop, processLine_wellFormed st i line hl]
      exact h1
    · rw [h2]
      simp [addTelemetry, layoutFrom]
    · rw [h3]
      simp [addTelemetry, Nat.add_assoc]

theorem compileLoop_error (lines : List String) :
    ∀ (i : Nat) (st : CompileState), (∃ l ∈ lines, ¬ WellFormedLine l) →
      ∃ e, compileLoop i lines st = .error e := by
  induction lines with
  | nil => intro i st h; obtain ⟨l, hl, _⟩ := h; cases hl
  | cons line rest ih =>
    intro i st h
    by_cases hl : WellFormedLine line
    · have hr : ∃ l ∈ rest, ¬ WellFormedLine l := by
        obtain ⟨l, hm, hb⟩ := h
        rcases List.mem_cons.mp hm with rfl | hm1
        · exact absurd hl hb
        · exact ⟨l, hm1, hb⟩
      obtain ⟨e, he⟩ := ih (i + 1)
        (addTelemetry st i ((nameToken line).getD "") (typeToken line) (lineWidth line)) hr
      exact ⟨e, by simp only [compileLoop, processLine_wellFormed st i line hl]; exact he⟩
    · obtain ⟨e, he⟩ := processLine_not_wellFormed st i line hl
      exact ⟨e, by simp only [compileLoop, he]⟩

theorem compile_wellFormed (lines : List String) (h : ∀ l ∈ lines, WellFormedLine l) :
    compile lines = .ok (layoutFrom 0 0 lines) := by
  obtain ⟨st1, h1, h2, _⟩ := compileLoop_wellFormed lines 0 CompileState.init h
  unfold compile
  rw [h1]
  simp only [h2, CompileState.init, List.nil_append]

theorem compile_not_wellFormed (lines : List String) (h : ∃ l ∈ lines, ¬ WellFormedLine l) :
    ∃ e, compile lines = .error e := by
  obtain ⟨e, he⟩ := compileLoop_error lines 0 CompileState.init h
  exact ⟨e, by unfold compile; rw [he]⟩

theorem compile_eq_ok_iff (lines : List String) (arr : List Telemetry) :
    compile lines = .ok arr ↔ (∀ l ∈ lines, WellFormedLine l) ∧ arr = layoutFrom 0 0 lines := by
  constructor
  · intro h
    by_cases hw : ∀ l ∈ lines, WellFormedLine l
    · rw [compile_wellFormed lines hw] at h
      exact ⟨hw, (Except.ok.inj h).symm⟩
    · push_neg at hw
      obtain ⟨e, he⟩ := compile_not_wellFormed lines hw
      rw [he] at h
      cases h
  · rintro ⟨hw, rfl⟩
    exact compile_wellFormed lines hw

theorem layoutFrom_length (lines : List String) :
    ∀ (i off : Nat), (layoutFrom i off lines).length = lines.length := by
  induction lines with
  | nil => intro i off; rfl
  | cons line rest ih => intro i off; simp [layoutFrom, ih]

theorem layoutFrom_getElem? (lines : List String) :
    ∀ (i off k : Nat), (layoutFrom i off lines)[k]? =
      (lines[k]?).map (fun line =>
        ⟨i + k, (nameToken line).getD "", typeToken line,
          off + ((lines.take k).map lineWidth).sum,
          off + ((lines.take k).map lineWidth).sum + lineWidth line⟩) := by
  induction lines with
  | nil => intro i off k; simp [layoutFrom]
  | cons line rest ih =>
    intro i off k
    cases k with
    | zero => simp [layoutFrom]
    | succ k =>
      simp only [layoutFrom, List.getElem?_cons_succ, ih, List.take_succ_cons, List.map_cons,
        List.sum_cons]
      cases rest[k]? with
      | none => rfl
      | some l => simp [Nat.add_assoc, Nat.add_comm 1 k]

theorem layoutFrom_getElem?_some (lines : List String) (i off k : Nat) (T : Telemetry)
    (h : (layoutFrom i off lines)[k]? = some T) :
    ∃ line, lines[k]? = some line ∧
      T = ⟨i + k, (nameToken line).getD "", typeToken line,
          off + ((lines.take k).map lineWidth).sum,
          off + ((lines.take k).map lineWidth).sum + lineWidth line⟩ := by
  rw [layoutFrom_getElem?] at h
  cases hl : lines[k]? with
  | none => rw [hl] at h; cases h
  | some line =>
    rw [hl] at h
    exact ⟨line, rfl, (Option.some.inj h).symm⟩

theorem sum_take_succ_of_getElem? (f : String → Nat) (lines : List String) :
    ∀ (k : Nat) (line : String), lines[k]? = some line →
      ((lines.take (k + 1)).map f).sum = ((lines.take k).map f).sum + f line := by
  induction lines with
  | nil => intro k line h; simp at h
  | cons l rest ih =>
    intro k line h
    cases k with
    | zero =>
      simp only [List.getElem?_cons_zero, Option.some.injEq] at h
      subst h
      simp
    | succ k =>
      simp only [List.getElem?_cons_succ] at h
      simp only [List.take_succ_cons, List.map_cons, List.sum_cons, ih k line h]
      omega

theorem wellFormed_width (line : String) (h : WellFormedLine line) :
    typeWidth (typeToken line) = some (lineWidth line) := by
  have := (typeWidth_isSome_iff (typeToken line)).mpr h.1
  obtain ⟨w, hw⟩ := Option.isSome_iff_exists.mp this
  simp [lineWidth, hw]

theorem wellFormed_name (line : String) (h : WellFormedLine line) :
    nameToken line = some ((nameToken line).getD "") := by
  obtain ⟨n, hn⟩ := Option.isSome_iff_exists.mp h.2
  simp [hn]

theorem layoutFrom_mem (lines : List String) :
    ∀ (i off : Nat), (∀ l ∈ lines, WellFormedLine l) → ∀ T ∈ layoutFrom i off lines,
      typeWidth T.dataType = some (T.endOffset - T.startOffset) ∧
      off ≤ T.startOffset ∧ T.startOffset ≤ T.endOffset ∧
      T.endOffset ≤ off + (lines.map lineWidth).sum := by
  induction lines with
  | nil => intro i off _ T hT; simp [layoutFrom] at hT
  | cons line rest ih =>
    intro i off h T hT
    have hl : WellFormedLine line := h line (List.mem_cons_self _ _)
    have hr : ∀ l ∈ rest, WellFormedLine l := fun l hm => h l (List.mem_cons_of_mem _ hm)
    simp only [layoutFrom, List.mem_cons] at hT
    rcases hT with rfl | hT
    · simp [wellFormed_width line hl]
    · obtain ⟨h1, h2, h3, h4⟩ := ih (i + 1) (off + lineWidth line) hr T hT
      refine ⟨h1, by omega, h3, ?_⟩
      simp only [List.map_cons, List.sum_cons]
      omega

theorem layoutFrom_getLast? (lines : List String) :
    ∀ (i off : Nat), lines ≠ [] →
      ∃ T, (layoutFrom i off lines).getLast? = some T ∧
        T.endOffset = off + (lines.map lineWidth).sum := by
  induction lines with
  | nil => intro i off h; exact absurd rfl h
  | cons line rest ih =>
    intro i off _
    cases rest with
    | nil => exact ⟨_, rfl, by simp [layoutFrom]⟩
    | cons l2 rest2 =>
      obtain ⟨T, hT, hE⟩ := ih (i + 1) (off + lineWidth line) (List.cons_ne_nil _ _)
      refine ⟨T, ?_, ?_⟩
      · rw [layoutFrom]
        rw [layoutFrom] at hT ⊢
        rw [List.getLast?_cons_cons]
        exact hT
      · rw [hE]
        simp only [List.map_cons, List.sum_cons]
        omega

theorem schemaSpan_layoutFrom (lines : List String) (i : Nat) :
    schemaSpan (layoutFrom i 0 lines) = (lines.map lineWidth).sum := by
  cases lines with
  | nil => rfl
  | cons line rest =>
    obtain ⟨T, hT, hE⟩ := layoutFrom_getLast? (line :: rest) i 0 (List.cons_ne_nil _ _)
    simp only [schemaSpan, hT, hE, Nat.zero_add]

/-- Every descriptor of a compiled schema has the width of its kind and lies inside the span. -/
theorem compile_fields_fit (lines : List String) (arr : List Telemetry)
    (h : compile lines = .ok arr) :
    ∀ T ∈ arr, typeWidth T.dataType = some (T.endOffset - T.startOffset) ∧
      T.startOffset ≤ T.endOffset ∧ T.endOffset ≤ schemaSpan arr := by
  obtain ⟨hw, rfl⟩ := (compile_eq_ok_iff lines arr).mp h
  intro T hT
  obtain ⟨h1, _, h3, h4⟩ := layoutFrom_mem lines 0 0 hw T hT
  rw [schemaSpan_layoutFrom]
  exact ⟨h1, h3, by omega⟩

/-! ## Schema compilation: the claims -/

/-- C2: for every sequence of N well-formed schema lines (a recognised type token and a name
token each), compilation succeeds, the compiled `telemArray` has exactly N descriptors,
descriptor 0 starts at byte 0, and for every `0 < i < N` the `startOffset` of descriptor `i` is
the `endOffset` of descriptor `i - 1`. -/
theorem compile_contiguous (lines : List String) (h : ∀ l ∈ lines, WellFormedLine l) :
    ∃ arr, compile lines = .ok arr ∧ arr.length = lines.length ∧
      (∀ T, arr[0]? = some T → T.startOffset = 0) ∧
      ∀ i A B, 0 < i → arr[i - 1]? = some A → arr[i]? = some B →
        B.startOffset = A.endOffset := by
  refine ⟨layoutFrom 0 0 lines, compile_wellFormed lines h, layoutFrom_length lines 0 0, ?_, ?_⟩
  · intro T hT
    obtain ⟨line, _, rfl⟩ := layoutFrom_getElem?_some lines 0 0 0 T hT
    simp
  · intro i A B hi hA hB
    obtain ⟨la, hla, rfl⟩ := layoutFrom_getElem?_some lines 0 0 (i - 1) A hA
    obtain ⟨lb, _, rfl⟩ := layoutFrom_getElem?_some lines 0 0 i B hB
    have hs := sum_take_succ_of_getElem? lineWidth lines (i - 1) la hla
    have hi1 : i - 1 + 1 = i := by omega
    rw [hi1] at hs
    simp only [Nat.zero_add]
    exact hs

/-- C2 at the lines `u32 TimestampMS`, `hzn Unknown`, `u8 Gear`. -/
theorem compile_contiguous_witness :
    (∀ l ∈ ["u32 TimestampMS", "hzn Unknown", "u8 Gear"], WellFormedLine l) ∧
    ∃ arr, compile ["u32 TimestampMS", "hzn Unknown", "u8 Gear"] = .ok arr ∧
      arr.length = ["u32 TimestampMS", "hzn Unknown", "u8 Gear"].length ∧
      (∀ T, arr[0]? = some T → T.startOffset = 0) ∧
      ∀ i A B, 0 < i → arr[i - 1]? = some A → arr[i]? = some B →
        B.startOffset = A.endOffset :=
  ⟨by decide, compile_contiguous ["u32 TimestampMS", "hzn Unknown", "u8 Gear"] (by decide)⟩

/-- C3: for every sequence of schema lines in which some line, at whatever position, has a type
token outside `s32, u32, f32, u16, u8, s8, hzn`, compilation fails with a schema error; the
result carries no schema, so the descriptors of the lines before the bad one are not returned. -/
theorem compile_unknown_type_fails (before after : List String) (bad : String)
    (h : typeToken bad ∉ knownTypes) :
    ∃ e, compile (before ++ bad :: after) = .error e ∧
      ∀ arr, compile (before ++ bad :: after) ≠ .ok arr := by
  obtain ⟨e, he⟩ := compile_not_wellFormed (before ++ bad :: after)
    ⟨bad, by simp, fun hw => h hw.1⟩
  exact ⟨e, he, fun arr ha => by rw [he] at ha; cases ha⟩

/-- C3 at the lines `u32 TimestampMS`, `x32 Speed`, `u8 Gear`: the bad line is in the middle. -/
theorem compile_unknown_type_fails_witness :
    typeToken "x32 Speed" ∉ knownTypes ∧
    ∃ e, compile (["u32 TimestampMS"] ++ "x32 Speed" :: ["u8 Gear"]) = .error e ∧
      ∀ arr, compile (["u32 TimestampMS"] ++ "x32 Speed" :: ["u8 Gear"]) ≠ .ok arr :=
  ⟨by decide, compile_unknown_type_fails ["u32 TimestampMS"] ["u8 Gear"] "x32 Speed" (by decide)⟩

/-- C10: for every sequence of well-formed schema lines compilation succeeds and descriptor `i`
has position `i`, the name token of line `i` as its name, the type token of line `i` as its
`dataType`, `endOffset - startOffset` equal to the width the fixed table gives that type, and
`startOffset` equal to the sum of the widths of lines `0 .. i-1`; the last `endOffset` (the span)
is the sum of all widths. -/
theorem compile_descriptors (lines : List String) (h : ∀ l ∈ lines, WellFormedLine l) :
    ∃ arr, compile lines = .ok arr ∧ arr.length = lines.length ∧
      (∀ i line, lines[i]? = some line → ∃ T, arr[i]? = some T ∧
        T.position = i ∧ nameToken line = some T.name ∧ T.dataType = typeToken line ∧
        typeWidth (typeToken line) = some (T.endOffset - T.startOffset) ∧
        T.startOffset ≤ T.endOffset ∧
        T.startOffset = ((lines.take i).map lineWidth).sum) ∧
      schemaSpan arr = (lines.map lineWidth).sum := by
  refine ⟨layoutFrom 0 0 lines, compile_wellFormed lines h, layoutFrom_length lines 0 0, ?_,
    schemaSpan_layoutFrom lines 0⟩
  intro i line hl
  have hw : WellFormedLine line := h line (List.getElem?_mem hl)
  refine ⟨_, by rw [layoutFrom_getElem?, hl]; rfl, ?_⟩
  simp only [Nat.zero_add, Nat.add_sub_cancel_left, Nat.le_add_right, and_true, true_and]
  exact ⟨wellFormed_name line hw, wellFormed_width line hw⟩

/-- C10 at the lines `s32 IsRaceOn`, `hzn Unknown`, `u16 Steer;wheel`. -/
theorem compile_descriptors_witness :
    (∀ l ∈ ["s32 IsRaceOn", "hzn Unknown", "u16 Steer;wheel"], WellFormedLine l) ∧
    ∃ arr, compile ["s32 IsRaceOn", "hzn Unknown", "u16 Steer;wheel"] = .ok arr ∧
      arr.length = ["s32 IsRaceOn", "hzn Unknown", "u16 Steer;wheel"].length ∧
      (∀ i line, ["s32 IsRaceOn", "hzn Unknown", "u16 Steer;wheel"][i]? = some line →
        ∃ T, arr[i]? = some T ∧
        T.position = i ∧ nameToken line = some T.name ∧ T.dataType = typeToken line ∧
        typeWidth (typeToken line) = some (T.endOffset - T.startOffset) ∧
        T.startOffset ≤ T.endOffset ∧
        T.startOffset =
          ((["s32 IsRaceOn", "hzn Unknown", "u16 Steer;wheel"].take i).map lineWidth).sum) ∧
      schemaSpan arr = (["s32 IsRaceOn", "hzn Unknown", "u16 Steer;wheel"].map lineWidth).sum :=
  ⟨by decide, compile_descriptors ["s32 IsRaceOn", "hzn Unknown", "u16 Steer;wheel"] (by decide)⟩

/-! ## Packet decoding: lemmas -/

theorem lor_bytes16 (a b : Byte) : a.val ||| (b.val <<< 8) = a.val + 256 * b.val := by
  have ha := a.isLt
  rw [Nat.shiftLeft_eq, Nat.lor_comm, Nat.mul_comm b.val (2 ^ 8),
    ← Nat.mul_add_lt_is_or (by omega) b.val]
  omega

theorem lor_bytes32 (a b c d : Byte) :
    a.val ||| (b.val <<< 8) ||| (c.val <<< 16) ||| (d.val <<< 24) =
      a.val + 256 * (b.val + 256 * (c.val + 256 * d.val)) := by
  have ha := a.isLt
  have hb := b.isLt
  have hc := c.isLt
  rw [lor_bytes16]
  rw [Nat.shiftLeft_eq c.val, Nat.lor_comm _ (c.val * 2 ^ 16), Nat.mul_comm c.val (2 ^ 16),
    ← Nat.mul_add_lt_is_or (by omega) c.val]
  rw [Nat.shiftLeft_eq d.val, Nat.lor_comm _ (d.val * 2 ^ 24), Nat.mul_comm d.val (2 ^ 24),
    ← Nat.mul_add_lt_is_or (by omega) d.val]
  omega

theorem littleEndian_lt (bs : List Byte) : littleEndian bs < 256 ^ bs.length := by
  induction bs with
  | nil => simp [littleEndian]
  | cons b bs ih =>
    have hb := b.isLt
    simp only [littleEndian, List.length_cons, Nat.pow_succ]
    omega

theorem uint32LE_ok (A : List Byte) (len : Nat) (h4 : 4 ≤ len) (hl : len ≤ A.length) :
    uint32LE ⟨A, len⟩ = .ok (littleEndian ((A.take len).take 4)) := by
  match A, hl with
  | a0 :: a1 :: a2 :: a3 :: rest, _ =>
    have h0 : 0 < len := by omega
    have h1 : 1 < len := by omega
    have h2 : 2 < len := by omega
    have h3 : 3 < len := by omega
    have ht : ((a0 :: a1 :: a2 :: a3 :: rest).take len).take 4 = [a0, a1, a2, a3] := by
      rw [List.take_take, Nat.min_eq_left h4]
      rfl
    rw [ht]
    simp only [uint32LE, GoSlice.index, h0, h1, h2, h3, if_true, List.get?, littleEndian,
      lor_bytes32]
    simp
  | [], hl => simp at hl; omega
  | [_], hl => simp at hl; omega
  | [_, _], hl => simp at hl; omega
  | [_, _, _], hl => simp at hl; omega

theorem uint32LE_short (A : List Byte) (len : Nat) (h4 : len < 4) :
    uint32LE ⟨A, len⟩ = .error .indexOutOfRange := by
  have h3 : ¬ 3 < len := by omega
  simp [uint32LE, GoSlice.index, h3]

theorem uint16LE_ok (A : List Byte) (len : Nat) (h2 : 2 ≤ len) (hl : len ≤ A.length) :
    uint16LE ⟨A, len⟩ = .ok (littleEndian ((A.take len).take 2)) := by
  match A, hl with
  | a0 :: a1 :: rest, _ =>
    have h0 : 0 < len := by omega
    have h1 : 1 < len := by omega
    have ht : ((a0 :: a1 :: rest).take len).take 2 = [a0, a1] := by
      rw [List.take_take, Nat.min_eq_left h2]
      rfl
    rw [ht]
    simp only [uint16LE, GoSlice.index, h0, h1, if_true, List.get?, littleEndian, lor_bytes16]
    simp
  | [], hl => simp at hl; omega
  | [_], hl => simp at hl; omega

theorem index_zero_ok (A : List Byte) (len : Nat) (h1 : 1 ≤ len) (hl : len ≤ A.length) :
    ∃ b, (A.take len).head? = some b ∧ GoSlice.index ⟨A, len⟩ 0 = .ok b := by
  match A, hl with
  | a0 :: rest, _ =>
    have h0 : 0 < len := by omega
    obtain ⟨m, rfl⟩ : ∃ m, len = m + 1 := ⟨len - 1, by omega⟩
    exact ⟨a0, by simp, by simp [GoSlice.index]⟩
  | [], hl => simp at hl; omega

theorem receiveBuffer_length (datagram : List Byte) :
    (receiveBuffer datagram).arr.length = bufferSize := by
  simp only [receiveBuffer, receivedLength, List.length_append, List.length_take,
    List.length_replicate]
  omega

theorem receivedLength_le (datagram : List Byte) : receivedLength datagram ≤ bufferSize := by
  simp only [receivedLength]
  omega

theorem fieldData_ok (datagram : List Byte) (T : Telemetry)
    (h1 : T.startOffset ≤ T.endOffset) (h2 : T.endOffset ≤ bufferSize) :
    fieldData (receiveBuffer datagram) (receivedLength datagram) T =
      .ok ⟨(receiveBuffer datagram).arr.drop T.startOffset, T.endOffset - T.startOffset⟩ := by
  have hlen := receiveBuffer_length datagram
  have hn := receivedLength_le datagram
  simp only [fieldData, GoSlice.slice, GoSlice.cap, hlen, Nat.zero_le, hn, and_self, if_true,
    List.drop_zero, h1, h2, Nat.sub_zero]

theorem wrapInt64_of_lt (x : Int) (h0 : 0 ≤ x) (h1 : x < 2 ^ 63) : wrapInt64 x = x := by
  unfold wrapInt64
  omega

theorem timestamp_nanoseconds (t : Nat) (h : t < 2 ^ 32) :
    timeUnix 0 (wrapInt64 ((t : Int) * timeMillisecond)) = (t : Int) * 1000000 := by
  have h1 : wrapInt64 ((t : Int) * timeMillisecond) = (t : Int) * 1000000 := by
    unfold timeMillisecond
    apply wrapInt64_of_lt <;> omega
  rw [h1]
  simp [timeUnix]

theorem littleEndian_take4_lt (bs : List Byte) : littleEndian (bs.take 4) < 2 ^ 32 := by
  have h := littleEndian_lt (bs.take 4)
  have hl : (bs.take 4).length ≤ 4 := by simp
  calc littleEndian (bs.take 4) < 256 ^ (bs.take 4).length := h
    _ ≤ 256 ^ 4 := Nat.pow_le_pow_right (by decide) hl
    _ = 2 ^ 32 := by norm_num

theorem reservedStep_ok (st : DecodeState) (T : Telemetry) (A : List Byte) (len : Nat)
    (hl : len ≤ A.length)
    (hres : (T.name = "TimestampMS" ∨ T.name = "CurrentEngineRpm") → 4 ≤ len) :
    reservedStep st T ⟨A, len⟩ = .ok
      (if T.name = "TimestampMS" then
        { st with p := st.p.SetTime ((littleEndian ((A.take len).take 4) : Int) * 1000000) }
      else if T.name = "CurrentEngineRpm" then
        { st with currentEngineRpm := littleEndian ((A.take len).take 4) }
      else st) := by
  unfold reservedStep
  by_cases h1 : T.name = "TimestampMS"
  · simp only [h1, if_true, uint32LE_ok A len (hres (Or.inl h1)) hl,
      timestamp_nanoseconds _ (littleEndian_take4_lt _)]
  · by_cases h2 : T.name = "CurrentEngineRpm"
    · rw [if_neg h1, if_pos h2, if_neg h1, if_pos h2]
      simp only [Float32frombytes, uint32LE_ok A len (hres (Or.inr h2)) hl]
    · simp only [h1, h2, if_false]

theorem typeSwitch_ok (st : DecodeState) (T : Telemetry) (A : List Byte) (len : Nat)
    (hl : len ≤ A.length) (hw : typeWidth T.dataType = some len) :
    typeSwitch st T ⟨A, len⟩ = .ok
      (match emittedField (A.take len) T with
       | some kv => { st with p := st.p.AddField kv.1 kv.2 }
       | none => st) := by
  have hk : T.dataType ∈ knownTypes :=
    (typeWidth_isSome_iff _).mp (by rw [hw]; rfl)
  simp only [knownTypes, List.mem_cons, List.mem_singleton, List.not_mem_nil, or_false] at hk
  unfold typeSwitch emittedField
  rcases hk with h | h | h | h | h | h | h <;> rw [h] at hw ⊢ <;>
    simp only [typeWidth, Option.some.injEq] at hw
  · simp
  · have h4 : 4 ≤ len := by simp at hw; omega
    simp [uint32LE_ok A len h4 hl]
  · have h4 : 4 ≤ len := by simp at hw; omega
    simp [Float32frombytes, uint32LE_ok A len h4 hl]
  · have h2 : 2 ≤ len := by simp at hw; omega
    simp [uint16LE_ok A len h2 hl]
  · have h1 : 1 ≤ len := by simp at hw; omega
    obtain ⟨b, hb, hi⟩ := index_zero_ok A len h1 hl
    simp [hb, hi]
  · have h1 : 1 ≤ len := by simp at hw; omega
    obtain ⟨b, hb, hi⟩ := index_zero_ok A len h1 hl
    simp [hb, hi]
  · simp

theorem decodeField_ok (datagram : List Byte) (st : DecodeState) (T : Telemetry)
    (h : FieldFits T) :
    decodeField (receiveBuffer datagram) (receivedLength datagram) st T =
      .ok (fieldStep (receiveBuffer datagram).arr st T) := by
  obtain ⟨h1, h2, h3, h4⟩ := h
  have hlen := receiveBuffer_length datagram
  have hl : T.endOffset - T.startOffset ≤
      ((receiveBuffer datagram).arr.drop T.startOffset).length := by
    rw [List.length_drop, hlen]
    omega
  unfold decodeField
  rw [fieldData_ok datagram T h1 h2]
  simp only [reservedStep_ok st T _ _ hl h4, typeSwitch_ok _ T _ _ hl h3]
  rfl

theorem decodeLoop_ok (datagram : List Byte) (telemArray : List Telemetry) :
    ∀ (st : DecodeState), (∀ T ∈ telemArray, FieldFits T) →
      decodeLoop (receiveBuffer datagram) (receivedLength datagram) telemArray st =
        .ok (telemArray.foldl (fieldStep (receiveBuffer datagram).arr) st) := by
  induction telemArray with
  | nil => intro st _; rfl
  | cons T rest ih =>
    intro st h
    have hT : FieldFits T := h T (List.mem_cons_self _ _)
    have hr : ∀ U ∈ rest, FieldFits U := fun U hU => h U (List.mem_cons_of_mem _ hU)
    simp only [decodeLoop, decodeField_ok datagram st T hT, List.foldl_cons]
    exact ih _ hr

theorem fieldStep_rpm (buf : List Byte) (st : DecodeState) (T : Telemetry) :
    (fieldStep buf st T).currentEngineRpm =
      if T.name = "CurrentEngineRpm" then littleEndian ((fieldBytes buf T).take 4)
      else st.currentEngineRpm := by
  simp only [fieldStep]
  by_cases h1 : T.name = "TimestampMS"
  · cases emittedField (fieldBytes buf T) T <;> simp [h1]
  · by_cases h2 : T.name = "CurrentEngineRpm"
    · cases emittedField (fieldBytes buf T) T <;> simp [h2]
    · cases emittedField (fieldBytes buf T) T <;> simp [h1, h2]

theorem fieldStep_time (buf : List Byte) (st : DecodeState) (T : Telemetry) :
    (fieldStep buf st T).p.time =
      if T.name = "TimestampMS" then
        some ((littleEndian ((fieldBytes buf T).take 4) : Int) * 1000000)
      else st.p.time := by
  simp only [fieldStep]
  by_cases h1 : T.name = "TimestampMS"
  · cases emittedField (fieldBytes buf T) T <;> simp [h1, Point.AddField, Point.SetTime]
  · by_cases h2 : T.name = "CurrentEngineRpm"
    · cases emittedField (fieldBytes buf T) T <;> simp [h2, Point.AddField]
    · cases emittedField (fieldBytes buf T) T <;> simp [h1, h2, Point.AddField]

theorem fieldStep_fields (buf : List Byte) (st : DecodeState) (T : Telemetry) :
    (fieldStep buf st T).p.fields =
      st.p.fields ++ (emittedField (fieldBytes buf T) T).toList := by
  simp only [fieldStep]
  by_cases h1 : T.name = "TimestampMS"
  · cases emittedField (fieldBytes buf T) T <;> simp [h1, Point.AddField, Point.SetTime]
  · by_cases h2 : T.name = "CurrentEngineRpm"
    · cases emittedField (fieldBytes buf T) T <;> simp [h2, Point.AddField]
    · cases emittedField (fieldBytes buf T) T <;> simp [h1, h2, Point.AddField]

theorem foldl_fieldStep_rpm (buf : List Byte) (arr : List Telemetry) :
    ∀ (st : DecodeState), (∀ T ∈ arr, T.name ≠ "CurrentEngineRpm") →
      (arr.foldl (fieldStep buf) st).currentEngineRpm = st.currentEngineRpm := by
  induction arr with
  | nil => intro st _; rfl
  | cons T rest ih =>
    intro st h
    rw [List.foldl_cons, ih _ (fun U hU => h U (List.mem_cons_of_mem _ hU)), fieldStep_rpm,
      if_neg (h T (List.mem_cons_self _ _))]

theorem foldl_fieldStep_time (buf : List Byte) (arr : List Telemetry) :
    ∀ (st : DecodeState), (∀ T ∈ arr, T.name ≠ "TimestampMS") →
      (arr.foldl (fieldStep buf) st).p.time = st.p.time := by
  induction arr with
  | nil => intro st _; rfl
  | cons T rest ih =>
    intro st h
    rw [List.foldl_cons, ih _ (fun U hU => h U (List.mem_cons_of_mem _ hU)), fieldStep_time,
      if_neg (h T (List.mem_cons_self _ _))]

theorem foldl_fieldStep_fields (buf : List Byte) (arr : List Telemetry) :
    ∀ (st : DecodeState), (arr.foldl (fieldStep buf) st).p.fields =
      st.p.fields ++ arr.filterMap (fun T => emittedField (fieldBytes buf T) T) := by
  induction arr with
  | nil => intro st; simp
  | cons T rest ih =>
    intro st
    rw [List.foldl_cons, ih, fieldStep_fields, List.filterMap_cons]
    cases emittedField (fieldBytes buf T) T <;> simp

/-- Inside the received length the buffer holds the datagram's bytes. -/
theorem fieldBytes_received (datagram : List Byte) (T : Telemetry)
    (h : T.endOffset ≤ receivedLength datagram) :
    fieldBytes (receiveBuffer datagram).arr T = fieldBytes datagram T := by
  unfold receivedLength at h
  have h1 : T.endOffset ≤ datagram.length := by omega
  have h2 : T.endOffset ≤ bufferSize := by omega
  unfold fieldBytes receiveBuffer
  apply List.ext_getElem?
  intro k
  simp only [List.getElem?_take, List.getElem?_drop]
  by_cases hk : k < T.endOffset - T.startOffset
  · simp only [hk, if_true]
    have hlt : T.startOffset + k < (datagram.take bufferSize).length := by
      rw [List.length_take]; omega
    rw [List.getElem?_append_left hlt, List.getElem?_take]
    have : T.startOffset + k < bufferSize := by omega
    simp [this]
  · simp only [hk, if_false]

theorem float32EqZero_iff (bits : Nat) :
    float32EqZero bits = true ↔ float32Value bits = some 0 := by
  unfold float32EqZero float32Value
  have hsplit : bits % 2 ^ 31 = (bits / 2 ^ 23 % 2 ^ 8) * 2 ^ 23 + bits % 2 ^ 23 := by omega
  have hm : bits % 2 ^ 23 < 2 ^ 23 := Nat.mod_lt _ (by norm_num)
  simp only [beq_iff_eq]
  rw [hsplit]
  generalize bits / 2 ^ 23 % 2 ^ 8 = e at *
  generalize bits % 2 ^ 23 = m at *
  generalize bits / 2 ^ 31 % 2 = s at *
  have hsign : (if s = 1 then (-1 : ℚ) else 1) ≠ 0 := by
    split <;> norm_num
  by_cases he255 : e = 255
  · simp only [he255, if_true]
    constructor
    · intro h; omega
    · intro h; cases h
  · by_cases he0 : e = 0
    · simp only [he0, if_true, Nat.zero_mul, Nat.zero_add]
      rw [if_neg (by decide)]
      simp only [Option.some.injEq]
      constructor
      · intro h; simp [h]
      · intro h
        have h149 : (2 : ℚ) ^ 149 ≠ 0 := pow_ne_zero _ (by norm_num)
        have h2 : ((if s = 1 then (-1 : ℚ) else 1) * (m : ℚ)) = 0 := by
          rcases div_eq_zero_iff.mp h with h2 | h2
          · exact h2
          · exact absurd h2 h149
        rcases mul_eq_zero.mp h2 with h3 | h3
        · exact absurd h3 hsign
        · exact_mod_cast h3
    · simp only [he255, he0, if_false, Option.some.injEq]
      constructor
      · intro h
        have : e = 0 := by omega
        exact absurd this he0
      · intro h
        exfalso
        have h150 : (2 : ℚ) ^ 150 ≠ 0 := pow_ne_zero _ (by norm_num)
        have hm0 : (0 : ℚ) ≤ (m : ℚ) := Nat.cast_nonneg m
        have h23 : (0 : ℚ) < 2 ^ 23 := pow_pos (by norm_num) _
        have hpos : (2 : ℚ) ^ 23 + (m : ℚ) ≠ 0 := ne_of_gt (by linarith)
        have hpe : (2 : ℚ) ^ e ≠ 0 := pow_ne_zero _ (by norm_num)
        have hne : (if s = 1 then (-1 : ℚ) else 1) * (2 ^ 23 + (m : ℚ)) * 2 ^ e / 2 ^ 150 ≠ 0 :=
          div_ne_zero (mul_ne_zero (mul_ne_zero hsign hpos) hpe) h150
        exact hne h

theorem float32IsNaN_value (bits : Nat) (h : float32IsNaN bits = true) :
    float32Value bits = none := by
  unfold float32IsNaN at h
  simp only [Bool.and_eq_true, beq_iff_eq] at h
  unfold float32Value
  simp only [h.1, if_true]

/-- A compiled schema whose span fits the received length and whose reserved-name fields are at
least 4 bytes wide is decoded without a panic, field by field as `fieldStep` says. -/
theorem decode_compiled (lines : List String) (telemArray : List Telemetry)
    (datagram : List Byte) (hc : compile lines = .ok telemArray)
    (hlen : schemaSpan telemArray ≤ receivedLength datagram)
    (hres : ∀ T ∈ telemArray, (T.name = "TimestampMS" ∨ T.name = "CurrentEngineRpm") →
      4 ≤ T.endOffset - T.startOffset) :
    decode telemArray datagram =
      .ok (telemArray.foldl (fieldStep (receiveBuffer datagram).arr) DecodeState.init) := by
  have hn := receivedLength_le datagram
  apply decodeLoop_ok
  intro T hT
  obtain ⟨h1, h2, h3⟩ := compile_fields_fit lines telemArray hc T hT
  exact ⟨h2, by omega, h1, hres T hT⟩

theorem fieldBytes_length_le (buf : List Byte) (T : Telemetry) :
    (fieldBytes buf T).length ≤ T.endOffset - T.startOffset := by
  simp only [fieldBytes, List.length_take]
  omega

theorem take4_fieldBytes (buf : List Byte) (T : Telemetry)
    (h : T.endOffset - T.startOffset = 4) : (fieldBytes buf T).take 4 = fieldBytes buf T := by
  apply List.take_of_length_le
  have := fieldBytes_length_le buf T
  omega

theorem width_of_four_byte_kind (lines : List String) (telemArray : List Telemetry)
    (hc : compile lines = .ok telemArray) (F : Telemetry) (hF : F ∈ telemArray)
    (hk : F.dataType = "f32" ∨ F.dataType = "u32" ∨ F.dataType = "s32") :
    F.endOffset - F.startOffset = 4 := by
  obtain ⟨h1, _, _⟩ := compile_fields_fit lines telemArray hc F hF
  rcases hk with h | h | h <;> rw [h] at h1 <;> simp [typeWidth] at h1 <;> omega

theorem readForzaData_of_decode (telemArray : List Telemetry) (datagram : List Byte)
    (st : DecodeState) (h : decode telemArray datagram = .ok st) (now : Int)
    (sink : List Point) :
    readForzaData telemArray datagram now sink =
      .ok (if st.valid = true then sink ++ [st.p.SetTime now] else sink) := by
  unfold readForzaData
  rw [h]
  simp only [DecodeState.valid]
  by_cases hz : float32EqZero st.currentEngineRpm = true
  · simp [hz]
  · simp [hz]

/-! ## Packet decoding: the claims -/

/-- C6 (amended): for every compiled schema with exactly one field named `CurrentEngineRpm`, of
kind `f32`, in which every field named `TimestampMS` is at least 4 bytes wide, and every
received packet at least as long as the schema's span, decoding completes, the liveness value is
the `float32` whose bits are the little-endian value of the field's 4 bytes, and the sample is
invalid (nothing is written) exactly when that value is zero; every non-zero value, negative
values and NaN bit patterns included, is valid and written. -/
theorem liveness_filter (lines : List String) (before after : List Telemetry) (F : Telemetry)
    (datagram : List Byte)
    (hc : compile lines = .ok (before ++ F :: after))
    (hF : F.name = "CurrentEngineRpm") (hk : F.dataType = "f32")
    (hb : ∀ T ∈ before, T.name ≠ "CurrentEngineRpm")
    (ha : ∀ T ∈ after, T.name ≠ "CurrentEngineRpm")
    (hts : ∀ T ∈ before ++ F :: after, T.name = "TimestampMS" →
      4 ≤ T.endOffset - T.startOffset)
    (hlen : schemaSpan (before ++ F :: after) ≤ receivedLength datagram) :
    ∃ st, decode (before ++ F :: after) datagram = .ok st ∧
      st.currentEngineRpm = littleEndian (fieldBytes datagram F) ∧
      (st.valid = false ↔ float32Value st.currentEngineRpm = some 0) ∧
      (∀ v, float32Value st.currentEngineRpm = some v → v ≠ 0 → st.valid = true) ∧
      (float32IsNaN st.currentEngineRpm = true → st.valid = true) ∧
      ∀ now sink, readForzaData (before ++ F :: after) datagram now sink =
        .ok (if st.valid = true then sink ++ [st.p.SetTime now] else sink) := by
  have hFmem : F ∈ before ++ F :: after := by simp
  have hw : F.endOffset - F.startOffset = 4 :=
    width_of_four_byte_kind lines _ hc F hFmem (Or.inl hk)
  have hres : ∀ T ∈ before ++ F :: after,
      (T.name = "TimestampMS" ∨ T.name = "CurrentEngineRpm") →
        4 ≤ T.endOffset - T.startOffset := by
    intro T hT hn
    rcases hn with hn | hn
    · exact hts T hT hn
    · rcases List.mem_append.mp hT with h1 | h1
      · exact absurd hn (hb T h1)
      · rcases List.mem_cons.mp h1 with h2 | h2
        · rw [h2, hw]
        · exact absurd hn (ha T h2)
  have hd := decode_compiled lines _ datagram hc hlen hres
  have hfit := (compile_fields_fit lines _ hc F hFmem).2.2
  have hrpm : ((before ++ F :: after).foldl (fieldStep (receiveBuffer datagram).arr)
      DecodeState.init).currentEngineRpm = littleEndian (fieldBytes datagram F) := by
    rw [List.foldl_append, List.foldl_cons, foldl_fieldStep_rpm _ after _ ha, fieldStep_rpm,
      if_pos hF, take4_fieldBytes _ F hw, fieldBytes_received datagram F (by omega)]
  have hvalid : ∀ st : DecodeState,
      (st.valid = false ↔ float32Value st.currentEngineRpm = some 0) := by
    intro st
    rw [← float32EqZero_iff]
    simp [DecodeState.valid]
  refine ⟨_, hd, hrpm, hvalid _, ?_, ?_, fun now sink => readForzaData_of_decode _ _ _ hd now sink⟩
  · intro v hv hne
    cases hval : DecodeState.valid _ with
    | true => rfl
    | false =>
      rw [(hvalid _).mp hval] at hv
      exact absurd (Option.some.inj hv).symm hne
  · intro hnan
    cases hval : DecodeState.valid _ with
    | true => rfl
    | false =>
      have := (hvalid _).mp hval
      rw [float32IsNaN_value _ hnan] at this
      cases this

/-- C6 (amended) at the scenario schema and the scenario packet. -/
theorem liveness_filter_witness :
    compile scenarioLines = .ok ([scenarioTimestamp] ++ scenarioRpm :: [scenarioGear]) ∧
    schemaSpan ([scenarioTimestamp] ++ scenarioRpm :: [scenarioGear]) ≤
      receivedLength scenarioPacket ∧
    ∃ st, decode ([scenarioTimestamp] ++ scenarioRpm :: [scenarioGear]) scenarioPacket = .ok st ∧
      st.currentEngineRpm = littleEndian (fieldBytes scenarioPacket scenarioRpm) ∧
      (st.valid = false ↔ float32Value st.currentEngineRpm = some 0) ∧
      (∀ v, float32Value st.currentEngineRpm = some v → v ≠ 0 → st.valid = true) ∧
      (float32IsNaN st.currentEngineRpm = true → st.valid = true) ∧
      ∀ now sink,
        readForzaData ([scenarioTimestamp] ++ scenarioRpm :: [scenarioGear]) scenarioPacket
          now sink = .ok (if st.valid = true then sink ++ [st.p.SetTime now] else sink) :=
  ⟨by decide, by decide,
    liveness_filter scenarioLines [scenarioTimestamp] [scenarioGear] scenarioRpm scenarioPacket
      (by decide) (by decide) (by decide) (by decide) (by decide) (by decide) (by decide)⟩

/-- C6 as stated fails: the schema `f32 CurrentEngineRpm`, `u8 TimestampMS` has exactly one
field named `CurrentEngineRpm`, of kind `f32`; the 5-byte packet `00 00 80 3F 07` covers its
span and carries the non-zero value 1.0; yet no sample is valid: `Uint32` panics on the 1-byte
slice of `TimestampMS` and nothing is written. -/
theorem liveness_filter_counterexample :
    compile ["f32 CurrentEngineRpm", "u8 TimestampMS"] =
      .ok [⟨0, "CurrentEngineRpm", "f32", 0, 4⟩, ⟨1, "TimestampMS", "u8", 4, 5⟩] ∧
    schemaSpan [⟨0, "CurrentEngineRpm", "f32", 0, 4⟩, ⟨1, "TimestampMS", "u8", 4, 5⟩] ≤
      receivedLength [0x00, 0x00, 0x80, 0x3F, 0x07] ∧
    float32Value (littleEndian [0x00, 0x00, 0x80, 0x3F]) = some 1 ∧
    decode [⟨0, "CurrentEngineRpm", "f32", 0, 4⟩, ⟨1, "TimestampMS", "u8", 4, 5⟩]
      [0x00, 0x00, 0x80, 0x3F, 0x07] = .error .indexOutOfRange ∧
    readForzaData [⟨0, "CurrentEngineRpm", "f32", 0, 4⟩, ⟨1, "TimestampMS", "u8", 4, 5⟩]
      [0x00, 0x00, 0x80, 0x3F, 0x07] 0 [] = .error .indexOutOfRange := by
  refine ⟨by decide, by decide, ?_, by decide!, by decide!⟩
  have h : littleEndian [0x00, 0x00, 0x80, 0x3F] = 1065353216 := by decide
  rw [h]
  norm_num [float32Value]

/-- C7 (amended): for every compiled schema with no field named `CurrentEngineRpm`, in which
every field named `TimestampMS` is at least 4 bytes wide, and every received packet at least as
long as the schema's span, decoding completes with `currentEngineRpm` still at its initial value
zero, so the sample is invalid and `readForzaData` returns without writing: the verdict is false
when the liveness field is absent as well as when it decoded to zero. -/
theorem absent_liveness_invalid (lines : List String) (telemArray : List Telemetry)
    (datagram : List Byte)
    (hc : compile lines = .ok telemArray)
    (hno : ∀ T ∈ telemArray, T.name ≠ "CurrentEngineRpm")
    (hts : ∀ T ∈ telemArray, T.name = "TimestampMS" → 4 ≤ T.endOffset - T.startOffset)
    (hlen : schemaSpan telemArray ≤ receivedLength datagram) :
    ∃ st, decode telemArray datagram = .ok st ∧ st.currentEngineRpm = 0 ∧ st.valid = false ∧
      ∀ now sink, readForzaData telemArray datagram now sink = .ok sink := by
  have hres : ∀ T ∈ telemArray, (T.name = "TimestampMS" ∨ T.name = "CurrentEngineRpm") →
      4 ≤ T.endOffset - T.startOffset := by
    intro T hT hn
    rcases hn with hn | hn
    · exact hts T hT hn
    · exact absurd hn (hno T hT)
  have hd := decode_compiled lines _ datagram hc hlen hres
  have hrpm : (telemArray.foldl (fieldStep (receiveBuffer datagram).arr)
      DecodeState.init).currentEngineRpm = 0 := by
    rw [foldl_fieldStep_rpm _ telemArray _ hno]
    rfl
  have hv : (telemArray.foldl (fieldStep (receiveBuffer datagram).arr)
      DecodeState.init).valid = false := by
    simp only [DecodeState.valid, hrpm]
    rfl
  refine ⟨_, hd, hrpm, hv, ?_⟩
  intro now sink
  rw [readForzaData_of_decode _ _ _ hd now sink, hv]
  simp

/-- C7 (amended) at the schema `u32 TimestampMS`, `u8 Gear` and the packet `E8 03 00 00 03`. -/
theorem absent_liveness_invalid_witness :
    compile ["u32 TimestampMS", "u8 Gear"] =
      .ok [⟨0, "TimestampMS", "u32", 0, 4⟩, ⟨1, "Gear", "u8", 4, 5⟩] ∧
    ∃ st, decode [⟨0, "TimestampMS", "u32", 0, 4⟩, ⟨1, "Gear", "u8", 4, 5⟩]
        [0xE8, 0x03, 0x00, 0x00, 0x03] = .ok st ∧
      st.currentEngineRpm = 0 ∧ st.valid = false ∧
      ∀ now sink, readForzaData [⟨0, "TimestampMS", "u32", 0, 4⟩, ⟨1, "Gear", "u8", 4, 5⟩]
        [0xE8, 0x03, 0x00, 0x00, 0x03] now sink = .ok sink :=
  ⟨by decide,
    absent_liveness_invalid ["u32 TimestampMS", "u8 Gear"]
      [⟨0, "TimestampMS", "u32", 0, 4⟩, ⟨1, "Gear", "u8", 4, 5⟩]
      [0xE8, 0x03, 0x00, 0x00, 0x03] (by decide) (by decide) (by decide) (by decide)⟩

/-- C7 as stated fails: the schema `u8 Gear` has no field named `CurrentEngineRpm` and the
1-byte packet `03` covers its span, yet the sample is invalid and the sink stays as it was. The
schema `u8 TimestampMS` shows why the reserved name needs 4 bytes: decoding the packet `07`
panics. -/
theorem absent_liveness_counterexample :
    compile ["u8 Gear"] = .ok [⟨0, "Gear", "u8", 0, 1⟩] ∧
    schemaSpan [⟨0, "Gear", "u8", 0, 1⟩] ≤ receivedLength [0x03] ∧
    decode [⟨0, "Gear", "u8", 0, 1⟩] [0x03] =
      .ok ⟨⟨"stat", none, [("Gear", .uint8 3)]⟩, 0⟩ ∧
    DecodeState.valid ⟨⟨"stat", none, [("Gear", .uint8 3)]⟩, 0⟩ = false ∧
    readForzaData [⟨0, "Gear", "u8", 0, 1⟩] [0x03] 0 [] = .ok [] ∧
    compile ["u8 TimestampMS"] = .ok [⟨0, "TimestampMS", "u8", 0, 1⟩] ∧
    decode [⟨0, "TimestampMS", "u8", 0, 1⟩] [0x07] = .error .indexOutOfRange := by
  refine ⟨by decide, by decide, by decide!, by decide, by decide!, by decide, by decide!⟩

/-- C8 (amended): for every compiled schema with exactly one field named `TimestampMS`, of kind
`u32`, in which every field named `CurrentEngineRpm` is at least 4 bytes wide, and every
received packet at least as long as the schema's span, decoding completes and the time set on
the point is `t` milliseconds (`t * 1000000` nanoseconds) after the Unix epoch, `t` the
little-endian unsigned value of the field's 4 bytes; `t` is below `2^32`, and for every such `t`
the 64-bit product `int64(t) * int64(time.Millisecond)` does not wrap. Decoding takes no clock
reading. -/
theorem timestamp_event_time (lines : List String) (before after : List Telemetry)
    (F : Telemetry) (datagram : List Byte)
    (hc : compile lines = .ok (before ++ F :: after))
    (hF : F.name = "TimestampMS") (hk : F.dataType = "u32")
    (hb : ∀ T ∈ before, T.name ≠ "TimestampMS")
    (ha : ∀ T ∈ after, T.name ≠ "TimestampMS")
    (hrpm : ∀ T ∈ before ++ F :: after, T.name = "CurrentEngineRpm" →
      4 ≤ T.endOffset - T.startOffset)
    (hlen : schemaSpan (before ++ F :: after) ≤ receivedLength datagram) :
    ∃ st, decode (before ++ F :: after) datagram = .ok st ∧
      st.p.time = some ((littleEndian (fieldBytes datagram F) : Int) * 1000000) ∧
      littleEndian (fieldBytes datagram F) < 2 ^ 32 ∧
      ∀ t : Nat, t < 2 ^ 32 →
        wrapInt64 ((t : Int) * timeMillisecond) = (t : Int) * 1000000 ∧
        timeUnix 0 (wrapInt64 ((t : Int) * timeMillisecond)) = (t : Int) * 1000000 := by
  have hFmem : F ∈ before ++ F :: after := by simp
  have hw : F.endOffset - F.startOffset = 4 :=
    width_of_four_byte_kind lines _ hc F hFmem (Or.inr (Or.inl hk))
  have hres : ∀ T ∈ before ++ F :: after,
      (T.name = "TimestampMS" ∨ T.name = "CurrentEngineRpm") →
        4 ≤ T.endOffset - T.startOffset := by
    intro T hT hn
    rcases hn with hn | hn
    · rcases List.mem_append.mp hT with h1 | h1
      · exact absurd hn (hb T h1)
      · rcases List.mem_cons.mp h1 with h2 | h2
        · rw [h2, hw]
        · exact absurd hn (ha T h2)
    · exact hrpm T hT hn
  have hd := decode_compiled lines _ datagram hc hlen hres
  have hfit := (compile_fields_fit lines _ hc F hFmem).2.2
  have htime : ((before ++ F :: after).foldl (fieldStep (receiveBuffer datagram).arr)
      DecodeState.init).p.time =
        some ((littleEndian (fieldBytes datagram F) : Int) * 1000000) := by
    rw [List.foldl_append, List.foldl_cons, foldl_fieldStep_time _ after _ ha, fieldStep_time,
      if_pos hF, take4_fieldBytes _ F hw, fieldBytes_received datagram F (by omega)]
  have hlt : littleEndian (fieldBytes datagram F) < 2 ^ 32 := by
    rw [← take4_fieldBytes datagram F hw]
    exact littleEndian_take4_lt _
  refine ⟨_, hd, htime, hlt, ?_⟩
  intro t ht
  have h1 : wrapInt64 ((t : Int) * timeMillisecond) = (t : Int) * 1000000 := by
    unfold timeMillisecond
    apply wrapInt64_of_lt <;> omega
  exact ⟨h1, timestamp_nanoseconds t ht⟩

/-- C8 (amended) at the scenario schema and the scenario packet, where `t = 1000`. -/
theorem timestamp_event_time_witness :
    compile scenarioLines = .ok ([] ++ scenarioTimestamp :: [scenarioRpm, scenarioGear]) ∧
    littleEndian (fieldBytes scenarioPacket scenarioTimestamp) = 1000 ∧
    ∃ st, decode ([] ++ scenarioTimestamp :: [scenarioRpm, scenarioGear]) scenarioPacket =
        .ok st ∧
      st.p.time = some ((littleEndian (fieldBytes scenarioPacket scenarioTimestamp) : Int)
        * 1000000) ∧
      littleEndian (fieldBytes scenarioPacket scenarioTimestamp) < 2 ^ 32 ∧
      ∀ t : Nat, t < 2 ^ 32 →
        wrapInt64 ((t : Int) * timeMillisecond) = (t : Int) * 1000000 ∧
        timeUnix 0 (wrapInt64 ((t : Int) * timeMillisecond)) = (t : Int) * 1000000 :=
  ⟨by decide, by decide,
    timestamp_event_time scenarioLines [] [scenarioRpm, scenarioGear] scenarioTimestamp
      scenarioPacket (by decide) (by decide) (by decide) (by decide) (by decide) (by decide)
      (by decide)⟩

/-- C8 as stated fails: the schema `u32 TimestampMS`, `u8 CurrentEngineRpm` contains a field
named `TimestampMS` of kind `u32` and the 5-byte packet `E8 03 00 00 01` covers its span, yet
decoding yields no sample: `Float32frombytes` panics on the 1-byte slice. With two fields named
`TimestampMS` the time left on the point is the second field's (2000 ms), not the first's
(1000 ms). -/
theorem timestamp_event_time_counterexample :
    compile ["u32 TimestampMS", "u8 CurrentEngineRpm"] =
      .ok [⟨0, "TimestampMS", "u32", 0, 4⟩, ⟨1, "CurrentEngineRpm", "u8", 4, 5⟩] ∧
    schemaSpan [⟨0, "TimestampMS", "u32", 0, 4⟩, ⟨1, "CurrentEngineRpm", "u8", 4, 5⟩] ≤
      receivedLength [0xE8, 0x03, 0x00, 0x00, 0x01] ∧
    decode [⟨0, "TimestampMS", "u32", 0, 4⟩, ⟨1, "CurrentEngineRpm", "u8", 4, 5⟩]
      [0xE8, 0x03, 0x00, 0x00, 0x01] = .error .indexOutOfRange ∧
    compile ["u32 TimestampMS", "u32 TimestampMS"] =
      .ok [⟨0, "TimestampMS", "u32", 0, 4⟩, ⟨1, "TimestampMS", "u32", 4, 8⟩] ∧
    littleEndian (fieldBytes [0xE8, 0x03, 0x00, 0x00, 0xD0, 0x07, 0x00, 0x00]
      ⟨0, "TimestampMS", "u32", 0, 4⟩) = 1000 ∧
    decode [⟨0, "TimestampMS", "u32", 0, 4⟩, ⟨1, "TimestampMS", "u32", 4, 8⟩]
      [0xE8, 0x03, 0x00, 0x00, 0xD0, 0x07, 0x00, 0x00] =
      .ok ⟨⟨"stat", some 2000000000,
        [("TimestampMS", .uint32 1000), ("TimestampMS", .uint32 2000)]⟩, 0⟩ := by
  refine ⟨by decide, by decide, by decide!, by decide, by decide, by decide!⟩

/-- C1 (the code at a failing input): the schema `f32 CurrentEngineRpm`, `u8 Gear` spans 5
bytes and the received packet `00 00 80 3F` has length 4, yet the loop does not fail:
`buffer[:4][4:5]` is a valid slice of the 1500-byte array, the byte at index 4 (not received) is
read as 0, the field `Gear` is emitted with value 0 and the point is written to the sink. -/
theorem short_packet_is_decoded :
    compile ["f32 CurrentEngineRpm", "u8 Gear"] =
      .ok [⟨0, "CurrentEngineRpm", "f32", 0, 4⟩, ⟨1, "Gear", "u8", 4, 5⟩] ∧
    schemaSpan [⟨0, "CurrentEngineRpm", "f32", 0, 4⟩, ⟨1, "Gear", "u8", 4, 5⟩] = 5 ∧
    receivedLength [0x00, 0x00, 0x80, 0x3F] = 4 ∧
    fieldData (receiveBuffer [0x00, 0x00, 0x80, 0x3F]) 4 ⟨1, "Gear", "u8", 4, 5⟩ =
      .ok ⟨List.replicate 1496 0, 1⟩ ∧
    decode [⟨0, "CurrentEngineRpm", "f32", 0, 4⟩, ⟨1, "Gear", "u8", 4, 5⟩]
      [0x00, 0x00, 0x80, 0x3F] =
      .ok ⟨⟨"stat", none, [("CurrentEngineRpm", .float32 0x3F800000), ("Gear", .uint8 0)]⟩,
        0x3F800000⟩ ∧
    readForzaData [⟨0, "CurrentEngineRpm", "f32", 0, 4⟩, ⟨1, "Gear", "u8", 4, 5⟩]
      [0x00, 0x00, 0x80, 0x3F] 1700000000000000000 [] =
      .ok [⟨"stat", some 1700000000000000000,
        [("CurrentEngineRpm", .float32 0x3F800000), ("Gear", .uint8 0)]⟩] := by
  refine ⟨by decide, by decide, by decide, by decide!, by decide!, by decide!⟩

/-- C4 (the code at a failing input): the schema `s32 IsRaceOn` has a field of kind `s32`, and
the packet `01 00 00 00` holds the little-endian encoding of 1 in its range, yet decoding emits
no field at all, so `IsRaceOn` is bound to nothing: the case `"s32"` of the switch is empty. -/
theorem s32_round_trip_fails :
    compile ["s32 IsRaceOn"] = .ok [⟨0, "IsRaceOn", "s32", 0, 4⟩] ∧
    littleEndian (fieldBytes [0x01, 0x00, 0x00, 0x00] ⟨0, "IsRaceOn", "s32", 0, 4⟩) = 1 ∧
    decode [⟨0, "IsRaceOn", "s32", 0, 4⟩] [0x01, 0x00, 0x00, 0x00] =
      .ok ⟨⟨"stat", none, []⟩, 0⟩ := by
  refine ⟨by decide, by decide, by decide!⟩

/-- C5 (the code at a failing input): the schema `s32 IsRaceOn`, `f32 CurrentEngineRpm`, `hzn
Unknown`, `u8 Gear` has three descriptors of a scalar kind, yet decoding a packet that covers
its span emits two entries only: the `s32` descriptor contributes none. -/
theorem s32_field_not_emitted :
    compile ["s32 IsRaceOn", "f32 CurrentEngineRpm", "hzn Unknown", "u8 Gear"] =
      .ok [⟨0, "IsRaceOn", "s32", 0, 4⟩, ⟨1, "CurrentEngineRpm", "f32", 4, 8⟩,
        ⟨2, "Unknown", "hzn", 8, 20⟩, ⟨3, "Gear", "u8", 20, 21⟩] ∧
    ([⟨0, "IsRaceOn", "s32", 0, 4⟩, ⟨1, "CurrentEngineRpm", "f32", 4, 8⟩,
        ⟨2, "Unknown", "hzn", 8, 20⟩, ⟨3, "Gear", "u8", 20, 21⟩].filter
      (fun T : Telemetry => decide (T.dataType ≠ "hzn"))).length = 3 ∧
    decode [⟨0, "IsRaceOn", "s32", 0, 4⟩, ⟨1, "CurrentEngineRpm", "f32", 4, 8⟩,
        ⟨2, "Unknown", "hzn", 8, 20⟩, ⟨3, "Gear", "u8", 20, 21⟩]
      [0x01, 0x00, 0x00, 0x00, 0x00, 0x00, 0x80, 0x3F, 0, 0, 0, 0, 0, 0, 0, 0, 0, 0, 0, 0,
        0x03] =
      .ok ⟨⟨"stat", none, [("CurrentEngineRpm", .float32 0x3F800000), ("Gear", .uint8 3)]⟩,
        0x3F800000⟩ := by
  refine ⟨by decide, by decide, by decide!⟩

/-- C9 (amended): the 4-byte buffer `00 00 80 3F` decoded as kind `f32` yields the `float32`
with bit pattern `0x3F800000`, which is 1.0, and the same buffer decoded as kind `u32` yields
1065353216 (`0x3F800000`). -/
theorem byte_order :
    decode [⟨0, "Value", "f32", 0, 4⟩] [0x00, 0x00, 0x80, 0x3F] =
      .ok ⟨⟨"stat", none, [("Value", .float32 0x3F800000)]⟩, 0⟩ ∧
    float32Value 0x3F800000 = some 1 ∧
    decode [⟨0, "Value", "u32", 0, 4⟩] [0x00, 0x00, 0x80, 0x3F] =
      .ok ⟨⟨"stat", none, [("Value", .uint32 1065353216)]⟩, 0⟩ ∧
    uint32LE ⟨[0x00, 0x00, 0x80, 0x3F], 4⟩ = .ok 1065353216 ∧
    Float32frombytes ⟨[0x00, 0x00, 0x80, 0x3F], 4⟩ = .ok 0x3F800000 := by
  refine ⟨by decide!, ?_, by decide!, by decide, by decide⟩
  norm_num [float32Value]

/-- C9 as stated fails: decoded as kind `u32` the buffer `00 00 80 3F` yields 1065353216, not
1069547520 (which is `0x3FC00000`, the bits of 1.5). -/
theorem byte_order_counterexample :
    uint32LE ⟨[0x00, 0x00, 0x80, 0x3F], 4⟩ ≠ .ok 1069547520 ∧
    decode [⟨0, "Value", "u32", 0, 4⟩] [0x00, 0x00, 0x80, 0x3F] ≠
      .ok ⟨⟨"stat", none, [("Value", .uint32 1069547520)]⟩, 0⟩ ∧
    float32Value 1069547520 = some (3 / 2) := by
  refine ⟨by decide, by decide!, ?_⟩
  norm_num [float32Value]

/-! ## Schema lines: tokens and comments -/

theorem splitChars_ne_nil (sep : Char) (l : List Char) : splitChars sep l ≠ [] := by
  induction l with
  | nil => simp [splitChars]
  | cons c cs ih =>
    unfold splitChars
    by_cases h : c = sep
    · simp [h]
    · simp only [h, if_false]
      cases hs : splitChars sep cs with
      | nil => simp
      | cons p r => simp

theorem splitChars_of_not_mem (sep : Char) (l : List Char) (h : sep ∉ l) :
    splitChars sep l = [l] := by
  induction l with
  | nil => rfl
  | cons c cs ih =>
    have hc : c ≠ sep := fun e => h (by simp [e])
    have hcs : sep ∉ cs := fun e => h (List.mem_cons_of_mem _ e)
    unfold splitChars
    simp only [hc, if_false, ih hcs]

theorem splitChars_append_sep (sep : Char) (xs ys : List Char) (h : sep ∉ xs) :
    splitChars sep (xs ++ sep :: ys) = xs :: splitChars sep ys := by
  induction xs with
  | nil =>
    simp only [List.nil_append]
    rw [splitChars]
    simp
  | cons c cs ih =>
    have hc : c ≠ sep := fun e => h (by simp [e])
    have hcs : sep ∉ cs := fun e => h (List.mem_cons_of_mem _ e)
    rw [List.cons_append, splitChars]
    simp only [hc, if_false, ih hcs]

/-- A piece list has a second element exactly when the separator occurs. -/
theorem splitChars_get?_one (sep : Char) (l : List Char) :
    (splitChars sep l).get? 1 = none ↔ sep ∉ l := by
  constructor
  · intro h hmem
    obtain ⟨xs, ys, rfl, hx⟩ : ∃ xs ys, l = xs ++ sep :: ys ∧ sep ∉ xs := by
      induction l with
      | nil => cases hmem
      | cons c cs ih =>
        by_cases hc : c = sep
        · exact ⟨[], cs, by simp [hc], by simp⟩
        · have hm : sep ∈ cs := by
            rcases List.mem_cons.mp hmem with e | e
            · exact absurd e.symm hc
            · exact e
          have hcs : (splitChars sep cs).get? 1 = none := by
            rw [splitChars] at h
            simp only [hc, if_false] at h
            cases hs : splitChars sep cs with
            | nil => rfl
            | cons p r =>
              rw [hs] at h
              simpa using h
          obtain ⟨xs, ys, rfl, hx⟩ := ih hcs hm
          refine ⟨c :: xs, ys, rfl, ?_⟩
          intro e
          rcases List.mem_cons.mp e with e1 | e1
          · exact hc e1.symm
          · exact hx e1
    rw [splitChars_append_sep sep xs ys hx] at h
    cases hs : splitChars sep ys with
    | nil => exact splitChars_ne_nil sep ys hs
    | cons p r => rw [hs] at h; simp at h
  · intro h
    rw [splitChars_of_not_mem sep l h]
    rfl

theorem dataFormat_eq (line : String) :
    dataFormat line = (splitChars ' ' (beforeSemicolon line)).map String.mk := by
  unfold dataFormat stringsSplit beforeSemicolon
  cases hs : splitChars ';' line.toList with
  | nil => exact absurd hs (splitChars_ne_nil _ _)
  | cons p r => rfl

theorem nameToken_eq_none_iff (line : String) :
    nameToken line = none ↔ ' ' ∉ beforeSemicolon line := by
  unfold nameToken
  rw [dataFormat_eq, List.get?_eq_getElem?, List.getElem?_map, ← List.get?_eq_getElem?, Option.map_eq_none', splitChars_get?_one]

theorem beforeSemicolon_plain (line : String) (h : ';' ∉ line.toList) :
    beforeSemicolon line = line.toList := by
  unfold beforeSemicolon
  rw [splitChars_of_not_mem _ _ h]
  rfl

theorem beforeSemicolon_comment (line : String) (xs c : List Char)
    (hl : line.toList = xs ++ ';' :: c) (h : ';' ∉ xs) : beforeSemicolon line = xs := by
  unfold beforeSemicolon
  rw [hl, splitChars_append_sep _ _ _ h]
  rfl

theorem knownTypes_chars (t : String) (ht : t ∈ knownTypes) :
    ' ' ∉ t.toList ∧ ';' ∉ t.toList := by
  simp only [knownTypes, List.mem_cons, List.mem_singleton, List.not_mem_nil, or_false] at ht
  rcases ht with h | h | h | h | h | h | h <;> subst h <;> decide

theorem toList_type_name (t n : String) :
    (t ++ " " ++ n).toList = t.toList ++ ' ' :: n.toList := by
  simp only [String.toList, String.data_append]
  simp

theorem toList_type_name_comment (t n c : String) :
    (t ++ " " ++ n ++ ";" ++ c).toList = (t.toList ++ ' ' :: n.toList) ++ ';' :: c.toList := by
  simp only [String.toList, String.data_append]
  simp

theorem dataFormat_of_before (line t n : String) (ht : ' ' ∉ t.toList) (hn : ' ' ∉ n.toList)
    (h : beforeSemicolon line = t.toList ++ ' ' :: n.toList) : dataFormat line = [t, n] := by
  rw [dataFormat_eq, h, splitChars_append_sep _ _ _ ht, splitChars_of_not_mem _ _ hn]
  rfl

theorem dataFormat_type_name (t n : String) (ht : t ∈ knownTypes)
    (hn1 : ' ' ∉ n.toList) (hn2 : ';' ∉ n.toList) : dataFormat (t ++ " " ++ n) = [t, n] := by
  obtain ⟨h1, h2⟩ := knownTypes_chars t ht
  apply dataFormat_of_before _ t n h1 hn1
  rw [beforeSemicolon_plain, toList_type_name]
  rw [toList_type_name]
  intro hmem
  rcases List.mem_append.mp hmem with e | e
  · exact h2 e
  · rcases List.mem_cons.mp e with e1 | e1
    · exact absurd e1 (by decide)
    · exact hn2 e1

theorem dataFormat_type_name_comment (t n c : String) (ht : t ∈ knownTypes)
    (hn1 : ' ' ∉ n.toList) (hn2 : ';' ∉ n.toList) :
    dataFormat (t ++ " " ++ n ++ ";" ++ c) = [t, n] := by
  obtain ⟨h1, h2⟩ := knownTypes_chars t ht
  apply dataFormat_of_before _ t n h1 hn1
  apply beforeSemicolon_comment _ _ c.toList (toList_type_name_comment t n c)
  intro hmem
  rcases List.mem_append.mp hmem with e | e
  · exact h2 e
  · rcases List.mem_cons.mp e with e1 | e1
    · exact absurd e1 (by decide)
    · exact hn2 e1

theorem processLine_congr (st : CompileState) (i : Nat) (l1 l2 : String)
    (h : dataFormat l1 = dataFormat l2) : processLine st i l1 = processLine st i l2 := by
  unfold processLine
  rw [h]

theorem compileLoop_congr (l1 l2 : String) (h : dataFormat l1 = dataFormat l2)
    (before after : List String) :
    ∀ (i : Nat) (st : CompileState),
      compileLoop i (before ++ l1 :: after) st = compileLoop i (before ++ l2 :: after) st := by
  induction before with
  | nil =>
    intro i st
    simp only [List.nil_append, compileLoop, processLine_congr st i l1 l2 h]
  | cons b rest ih =>
    intro i st
    simp only [List.cons_append, compileLoop]
    cases processLine st i b with
    | error e => rfl
    | ok st1 => exact ih (i + 1) st1

theorem compileLoop_append (xs ys : List String) :
    ∀ (i : Nat) (st : CompileState),
      compileLoop i (xs ++ ys) st =
        match compileLoop i xs st with
        | .error e => .error e
        | .ok st1 => compileLoop (i + xs.length) ys st1 := by
  induction xs with
  | nil => intro i st; rfl
  | cons x rest ih =>
    intro i st
    simp only [List.cons_append, compileLoop, List.length_cons]
    cases processLine st i x with
    | error e => rfl
    | ok st1 =>
      have hidx : i + 1 + rest.length = i + (rest.length + 1) := by omega
      have h2 := ih (i + 1) st1
      rw [hidx] at h2
      exact h2

theorem processLine_no_name (st : CompileState) (i : Nat) (line : String)
    (h : nameToken line = none) : processLine st i line = .error (.indexOutOfRange i) := by
  have h2 : (dataFormat line).get? 1 = none := h
  unfold processLine
  simp only [h2]

theorem processLine_type_name (st : CompileState) (i : Nat) (line t n : String) (w : Nat)
    (h : dataFormat line = [t, n]) (hw : typeWidth t = some w) :
    processLine st i line = .ok (addTelemetry st i n t w) := by
  have hwf : WellFormedLine line := by
    refine ⟨?_, ?_⟩
    · have : typeToken line = t := by simp [typeToken, h]
      rw [this]
      exact (typeWidth_isSome_iff t).mp (by rw [hw]; rfl)
    · simp [nameToken, h]
  rw [processLine_wellFormed st i line hwf]
  simp [nameToken, typeToken, lineWidth, h, hw]

/-- C11 (amended): for every schema line whose text before the first semicolon contains no
space (a blank line, a line with only a type token), at whatever position, compilation fails
with a fatal error and returns no schema: the line is neither skipped nor accepted. When the
lines before it are well formed the error is the index panic of `dataFormat[1]` at that line. -/
theorem line_without_name_fails (before after : List String) (bad : String)
    (h : ' ' ∉ beforeSemicolon bad) :
    (∃ e, compile (before ++ bad :: after) = .error e) ∧
    (∀ arr, compile (before ++ bad :: after) ≠ .ok arr) ∧
    ((∀ l ∈ before, WellFormedLine l) →
      compile (before ++ bad :: after) = .error (.indexOutOfRange before.length)) := by
  have hnone : nameToken bad = none := (nameToken_eq_none_iff bad).mpr h
  have hbad : ¬ WellFormedLine bad := fun hw => by
    have := hw.2
    rw [hnone] at this
    cases this
  obtain ⟨e, he⟩ := compile_not_wellFormed (before ++ bad :: after) ⟨bad, by simp, hbad⟩
  refine ⟨⟨e, he⟩, ?_, ?_⟩
  · intro arr ha
    rw [he] at ha
    cases ha
  intro hb
  obtain ⟨st1, h1, _, _⟩ := compileLoop_wellFormed before 0 CompileState.init hb
  unfold compile
  rw [compileLoop_append, h1]
  simp only [compileLoop, processLine_no_name _ _ bad hnone, Nat.zero_add]

/-- C11 (amended) at a blank line after one good line. -/
theorem line_without_name_fails_witness :
    ' ' ∉ beforeSemicolon "" ∧
    (∃ e, compile (["u32 TimestampMS"] ++ "" :: ["u8 Gear"]) = .error e) ∧
    (∀ arr, compile (["u32 TimestampMS"] ++ "" :: ["u8 Gear"]) ≠ .ok arr) ∧
    ((∀ l ∈ ["u32 TimestampMS"], WellFormedLine l) →
      compile (["u32 TimestampMS"] ++ "" :: ["u8 Gear"]) =
        .error (.indexOutOfRange ["u32 TimestampMS"].length)) :=
  ⟨by decide, line_without_name_fails ["u32 TimestampMS"] ["u8 Gear"] "" (by decide)⟩

/-- C11 as stated fails: the line `u32 ` (empty name) and the line `u32 a b` (three tokens) are
accepted as descriptors, with names `""` and `a`; the type-only line `u32` and the blank line
are rejected. -/
theorem malformed_line_counterexample :
    compile ["u32 "] = .ok [⟨0, "", "u32", 0, 4⟩] ∧
    compile ["u32 a b"] = .ok [⟨0, "a", "u32", 0, 4⟩] ∧
    compile ["u32"] = .error (.indexOutOfRange 0) ∧
    compile [""] = .error (.indexOutOfRange 0) := by
  refine ⟨by decide, by decide, by decide, by decide⟩

/-- C12: for every recognised type token `t`, every name `n` without space and semicolon and
every comment text `c`, the line `t n;c` is processed exactly like the line `t n`: both split
into the tokens `[t, n]`, each loop iteration appends the same descriptor (position, name `n`,
kind `t`, the same offsets), and compiling a file with either line gives the same result. -/
theorem comment_stripped (t n c : String) (before after : List String)
    (ht : t ∈ knownTypes) (hn1 : ' ' ∉ n.toList) (hn2 : ';' ∉ n.toList) :
    dataFormat (t ++ " " ++ n ++ ";" ++ c) = [t, n] ∧
    dataFormat (t ++ " " ++ n) = [t, n] ∧
    (∃ w, typeWidth t = some w ∧ ∀ st i,
      processLine st i (t ++ " " ++ n ++ ";" ++ c) = .ok (addTelemetry st i n t w) ∧
      processLine st i (t ++ " " ++ n) = .ok (addTelemetry st i n t w)) ∧
    compile (before ++ (t ++ " " ++ n ++ ";" ++ c) :: after) =
      compile (before ++ (t ++ " " ++ n) :: after) := by
  have h1 := dataFormat_type_name_comment t n c ht hn1 hn2
  have h2 := dataFormat_type_name t n ht hn1 hn2
  obtain ⟨w, hw⟩ := Option.isSome_iff_exists.mp ((typeWidth_isSome_iff t).mpr ht)
  refine ⟨h1, h2, ⟨w, hw, fun st i => ⟨processLine_type_name st i _ t n w h1 hw,
    processLine_type_name st i _ t n w h2 hw⟩⟩, ?_⟩
  unfold compile
  rw [compileLoop_congr _ _ (h1.trans h2.symm) before after 0 CompileState.init]

/-- C12 at `f32 CurrentEngineRpm` with the comment ` rpm; idle = 800`. -/
theorem comment_stripped_witness :
    dataFormat ("f32" ++ " " ++ "CurrentEngineRpm" ++ ";" ++ " rpm; idle = 800") =
      ["f32", "CurrentEngineRpm"] ∧
    dataFormat ("f32" ++ " " ++ "CurrentEngineRpm") = ["f32", "CurrentEngineRpm"] ∧
    (∃ w, typeWidth "f32" = some w ∧ ∀ st i,
      processLine st i ("f32" ++ " " ++ "CurrentEngineRpm" ++ ";" ++ " rpm; idle = 800") =
        .ok (addTelemetry st i "CurrentEngineRpm" "f32" w) ∧
      processLine st i ("f32" ++ " " ++ "CurrentEngineRpm") =
        .ok (addTelemetry st i "CurrentEngineRpm" "f32" w)) ∧
    compile (["u32 TimestampMS"] ++
        ("f32" ++ " " ++ "CurrentEngineRpm" ++ ";" ++ " rpm; idle = 800") :: ["u8 Gear"]) =
      compile (["u32 TimestampMS"] ++ ("f32" ++ " " ++ "CurrentEngineRpm") :: ["u8 Gear"]) :=
  comment_stripped "f32" "CurrentEngineRpm" " rpm; idle = 800" ["u32 TimestampMS"] ["u8 Gear"]
    (by decide) (by decide) (by decide)

theorem getElem?_middle (before after : List String) (x : String) :
    (before ++ x :: after)[before.length]? = some x := by
  induction before with
  | nil => simp
  | cons b rest ih => simpa using ih

/-- C13 (amended): for every recognised type token `t` and every name `n` without space and
semicolon, a schema line in which `t` and `n` are separated by exactly one space compiles, among
well-formed lines, to a descriptor with `dataType` `t` and name `n`. -/
theorem single_space_tokenisation (t n : String) (before after : List String)
    (ht : t ∈ knownTypes) (hn1 : ' ' ∉ n.toList) (hn2 : ';' ∉ n.toList)
    (hb : ∀ l ∈ before, WellFormedLine l) (ha : ∀ l ∈ after, WellFormedLine l) :
    ∃ arr T, compile (before ++ (t ++ " " ++ n) :: after) = .ok arr ∧
      arr[before.length]? = some T ∧ T.dataType = t ∧ T.name = n ∧
      T.position = before.length := by
  have h2 := dataFormat_type_name t n ht hn1 hn2
  have hline : WellFormedLine (t ++ " " ++ n) := by
    refine ⟨?_, ?_⟩
    · have : typeToken (t ++ " " ++ n) = t := by simp [typeToken, h2]
      rw [this]; exact ht
    · simp [nameToken, h2]
  have hall : ∀ l ∈ before ++ (t ++ " " ++ n) :: after, WellFormedLine l := by
    intro l hl
    rcases List.mem_append.mp hl with e | e
    · exact hb l e
    · rcases List.mem_cons.mp e with e1 | e1
      · rw [e1]; exact hline
      · exact ha l e1
  obtain ⟨T, hT⟩ : ∃ T, (layoutFrom 0 0 (before ++ (t ++ " " ++ n) :: after))[before.length]?
      = some T := by
    rw [layoutFrom_getElem?, getElem?_middle]
    exact ⟨_, rfl⟩
  refine ⟨_, T, compile_wellFormed _ hall, hT, ?_⟩
  obtain ⟨line, hl, rfl⟩ := layoutFrom_getElem?_some _ 0 0 _ T hT
  have hline2 : line = t ++ " " ++ n := by
    rw [getElem?_middle] at hl
    exact (Option.some.inj hl).symm
  subst hline2
  simp [typeToken, nameToken, h2]

/-- C13 (amended) at the line `u16 Steer` between two well-formed lines. -/
theorem single_space_tokenisation_witness :
    ∃ arr T, compile (["u32 TimestampMS"] ++ ("u16" ++ " " ++ "Steer") :: ["u8 Gear"]) = .ok arr ∧
      arr[["u32 TimestampMS"].length]? = some T ∧ T.dataType = "u16" ∧ T.name = "Steer" ∧
      T.position = ["u32 TimestampMS"].length :=
  single_space_tokenisation "u16" "Steer" ["u32 TimestampMS"] ["u8 Gear"]
    (by decide) (by decide) (by decide) (by decide) (by decide)

/-- C13 as stated fails: with two spaces between `u32` and `Speed` the compiled descriptor has
the empty name, and with a tab between them compilation stops with the index panic. -/
theorem whitespace_tokenisation_counterexample :
    compile ["u32  Speed"] = .ok [⟨0, "", "u32", 0, 4⟩] ∧
    compile ["u32\tSpeed"] = .error (.indexOutOfRange 0) := by
  refine ⟨by decide, by decide⟩

/-! ## Byte-level decoding of one field -/

theorem littleEndian_four (b0 b1 b2 b3 : Byte) :
    littleEndian [b0, b1, b2, b3] =
      b0.val + 2 ^ 8 * b1.val + 2 ^ 16 * b2.val + 2 ^ 24 * b3.val := by
  simp only [littleEndian]
  omega

theorem littleEndian_two (b0 b1 : Byte) :
    littleEndian [b0, b1] = b0.val + 2 ^ 8 * b1.val := by
  simp only [littleEndian]
  omega

/-- C14: for every field slice `b` of the width of its kind, the `switch` adds under the
field's name: for `u32` the value `b[0] + 2^8*b[1] + 2^16*b[2] + 2^24*b[3]`, for `f32` the
`float32` whose bit pattern is that same value, for `u16` the value `b[0] + 2^8*b[1]`, for `u8`
the byte `b[0]`, and for `s8` the two's-complement reading of `b[0]` (`b[0]` below 128,
`b[0] - 256` from 128 on), which lies in `[-128, 127]`. -/
theorem little_endian_decoding (st : DecodeState) (pos lo hi : Nat) (name : String)
    (b0 b1 b2 b3 : Byte) (rest : List Byte) :
    typeSwitch st ⟨pos, name, "u32", lo, hi⟩ ⟨b0 :: b1 :: b2 :: b3 :: rest, 4⟩ =
      .ok ⟨st.p.AddField name
        (.uint32 (b0.val + 2 ^ 8 * b1.val + 2 ^ 16 * b2.val + 2 ^ 24 * b3.val)), st.currentEngineRpm⟩ ∧
    typeSwitch st ⟨pos, name, "f32", lo, hi⟩ ⟨b0 :: b1 :: b2 :: b3 :: rest, 4⟩ =
      .ok ⟨st.p.AddField name
        (.float32 (b0.val + 2 ^ 8 * b1.val + 2 ^ 16 * b2.val + 2 ^ 24 * b3.val)), st.currentEngineRpm⟩ ∧
    typeSwitch st ⟨pos, name, "u16", lo, hi⟩ ⟨b0 :: b1 :: rest, 2⟩ =
      .ok ⟨st.p.AddField name (.uint16 (b0.val + 2 ^ 8 * b1.val)), st.currentEngineRpm⟩ ∧
    typeSwitch st ⟨pos, name, "u8", lo, hi⟩ ⟨b0 :: rest, 1⟩ =
      .ok ⟨st.p.AddField name (.uint8 b0), st.currentEngineRpm⟩ ∧
    typeSwitch st ⟨pos, name, "s8", lo, hi⟩ ⟨b0 :: rest, 1⟩ =
      .ok ⟨st.p.AddField name
        (.int8 (if b0.val < 128 then (b0.val : Int) else (b0.val : Int) - 256)), st.currentEngineRpm⟩ ∧
    -128 ≤ int8OfByte b0 ∧ int8OfByte b0 ≤ 127 := by
  have h4 : uint32LE ⟨b0 :: b1 :: b2 :: b3 :: rest, 4⟩ =
      .ok (b0.val + 2 ^ 8 * b1.val + 2 ^ 16 * b2.val + 2 ^ 24 * b3.val) := by
    rw [uint32LE_ok _ 4 (Nat.le_refl 4) (by simp), ← littleEndian_four]
    rfl
  have h2 : uint16LE ⟨b0 :: b1 :: rest, 2⟩ = .ok (b0.val + 2 ^ 8 * b1.val) := by
    rw [uint16LE_ok _ 2 (Nat.le_refl 2) (by simp), ← littleEndian_two]
    rfl
  have h1 : GoSlice.index ⟨b0 :: rest, 1⟩ 0 = .ok b0 := by
    simp [GoSlice.index]
  have hb := b0.isLt
  refine ⟨?_, ?_, ?_, ?_, ?_, ?_, ?_⟩
  · simp [typeSwitch, h4]
  · simp [typeSwitch, Float32frombytes, h4]
  · simp [typeSwitch, h2]
  · simp [typeSwitch, h1]
  · simp [typeSwitch, h1, int8OfByte]
  · unfold int8OfByte; split <;> omega
  · unfold int8OfByte; split <;> omega

/-! ## What a loop iteration can add to the point -/

theorem reservedStep_fields (st st1 : DecodeState) (T : Telemetry) (data : GoSlice)
    (h : reservedStep st T data = .ok st1) : st1.p.fields = st.p.fields := by
  unfold reservedStep at h
  split at h
  · split at h
    · cases h
    · cases h; rfl
  · split at h
    · split at h
      · cases h
      · cases h; rfl
    · cases h; rfl

theorem typeSwitch_fields (st st1 : DecodeState) (T : Telemetry) (data : GoSlice)
    (h : typeSwitch st T data = .ok st1) :
    st1.p.fields = st.p.fields ∨
      ∃ v, st1.p.fields = st.p.fields ++ [(T.name, v)] ∧ T.dataType ≠ "hzn" := by
  unfold typeSwitch at h
  split at h
  · cases h; exact Or.inl rfl
  · split at h
    · rename_i hk
      split at h
      · cases h
      · cases h; exact Or.inr ⟨_, rfl, by rw [hk]; decide⟩
    · split at h
      · rename_i hk
        split at h
        · cases h
        · cases h; exact Or.inr ⟨_, rfl, by rw [hk]; decide⟩
      · split at h
        · rename_i hk
          split at h
          · cases h
          · cases h; exact Or.inr ⟨_, rfl, by rw [hk]; decide⟩
        · split at h
          · rename_i hk
            split at h
            · cases h
            · cases h; exact Or.inr ⟨_, rfl, by rw [hk]; decide⟩
          · split at h
            · rename_i hk
              split at h
              · cases h
              · cases h; exact Or.inr ⟨_, rfl, by rw [hk]; decide⟩
            · cases h; exact Or.inl rfl

theorem decodeField_fields (buffer : GoSlice) (n : Nat) (st st1 : DecodeState) (T : Telemetry)
    (h : decodeField buffer n st T = .ok st1) :
    st1.p.fields = st.p.fields ∨
      ∃ v, st1.p.fields = st.p.fields ++ [(T.name, v)] ∧ T.dataType ≠ "hzn" := by
  unfold decodeField at h
  split at h
  · cases h
  · split at h
    · cases h
    · rename_i st0 hres
      have h0 := reservedStep_fields st st0 T _ hres
      rw [← h0]
      exact typeSwitch_fields st0 st1 T _ h

theorem decodeLoop_fields (buffer : GoSlice) (n : Nat) (arr : List Telemetry) :
    ∀ (st st1 : DecodeState), decodeLoop buffer n arr st = .ok st1 →
      ∀ kv ∈ st1.p.fields, kv ∈ st.p.fields ∨
        ∃ T ∈ arr, T.name = kv.1 ∧ T.dataType ≠ "hzn" := by
  induction arr with
  | nil =>
    intro st st1 h kv hkv
    simp only [decodeLoop] at h
    cases h
    exact Or.inl hkv
  | cons T rest ih =>
    intro st st1 h kv hkv
    simp only [decodeLoop] at h
    split at h
    · cases h
    · rename_i st0 hfield
      rcases ih st0 st1 h kv hkv with h1 | ⟨U, hU, hn, hk⟩
      · rcases decodeField_fields buffer n st st0 T hfield with h2 | ⟨v, h2, hk⟩
        · rw [h2] at h1; exact Or.inl h1
        · rw [h2] at h1
          rcases List.mem_append.mp h1 with h3 | h3
          · exact Or.inl h3
          · simp only [List.mem_singleton] at h3
            exact Or.inr ⟨T, List.mem_cons_self _ _, by rw [h3], hk⟩
      · exact Or.inr ⟨U, List.mem_cons_of_mem _ hU, hn, hk⟩

theorem sum_take_le (f : String → Nat) (lines : List String) :
    ∀ (i j : Nat), i ≤ j → ((lines.take i).map f).sum ≤ ((lines.take j).map f).sum := by
  induction lines with
  | nil => intro i j _; simp
  | cons l rest ih =>
    intro i j hij
    cases i with
    | zero => simp
    | succ i =>
      cases j with
      | zero => omega
      | succ j =>
        simp only [List.take_succ_cons, List.map_cons, List.sum_cons]
        have := ih i j (by omega)
        omega

theorem nodup_names_unique (arr : List Telemetry) (hd : (arr.map (fun T => T.name)).Nodup)
    (A B : Telemetry) (hA : A ∈ arr) (hB : B ∈ arr) (h : A.name = B.name) : A = B :=
  List.inj_on_of_nodup_map hd hA hB h

/-- C15: for every compiled schema with pairwise distinct field names and every packet, no
descriptor of kind `hzn` has an entry among the fields of a decoded point, while its 12 bytes
count in the layout: its range is 12 bytes wide and every later descriptor starts at or after
its end. Decoding does complete when the span fits the buffer and the reserved-name fields are
at least 4 bytes wide. -/
theorem hzn_not_emitted (lines : List String) (telemArray : List Telemetry)
    (datagram : List Byte) (hc : compile lines = .ok telemArray)
    (hd : (telemArray.map (fun T => T.name)).Nodup) :
    (∀ st, decode telemArray datagram = .ok st →
      ∀ T ∈ telemArray, T.dataType = "hzn" → ∀ v, (T.name, v) ∉ st.p.fields) ∧
    (∀ (i : Nat) (A : Telemetry), telemArray[i]? = some A → A.dataType = "hzn" →
      A.endOffset = A.startOffset + 12 ∧
      ∀ (j : Nat) (B : Telemetry), i < j → telemArray[j]? = some B → A.startOffset + 12 ≤ B.startOffset) ∧
    (schemaSpan telemArray ≤ receivedLength datagram →
      (∀ T ∈ telemArray, (T.name = "TimestampMS" ∨ T.name = "CurrentEngineRpm") →
        4 ≤ T.endOffset - T.startOffset) →
      ∃ st, decode telemArray datagram = .ok st) := by
  refine ⟨?_, ?_, ?_⟩
  · intro st hst T hT hk v hmem
    rcases decodeLoop_fields _ _ telemArray _ st hst (T.name, v) hmem with h1 | ⟨U, hU, hn, hk2⟩
    · simp [DecodeState.init, NewPointWithMeasurement] at h1
    · have hTU : U = T := nodup_names_unique telemArray hd U T hU hT hn
      rw [hTU] at hk2
      exact hk2 hk
  · intro i A hA hk
    have hAmem : A ∈ telemArray := List.getElem?_mem hA
    obtain ⟨hwA, hleA, _⟩ := compile_fields_fit lines telemArray hc A hAmem
    have hend : A.endOffset = A.startOffset + 12 := by
      rw [hk] at hwA
      simp [typeWidth] at hwA
      omega
    refine ⟨hend, ?_⟩
    intro j B hij hB
    obtain ⟨_, rfl⟩ := (compile_eq_ok_iff lines telemArray).mp hc
    obtain ⟨la, hla, rfl⟩ := layoutFrom_getElem?_some lines 0 0 i A hA
    obtain ⟨lb, _, rfl⟩ := layoutFrom_getElem?_some lines 0 0 j B hB
    have h1 := sum_take_succ_of_getElem? lineWidth lines i la hla
    have h2 := sum_take_le lineWidth lines (i + 1) j (by omega)
    simp only at hend ⊢
    omega
  · intro hlen hres
    exact ⟨_, decode_compiled lines telemArray datagram hc hlen hres⟩

/-- C15 at the schema `u32 TimestampMS`, `hzn Unknown`, `u8 Gear`. -/
theorem hzn_not_emitted_witness :
    (∀ st, decode [⟨0, "TimestampMS", "u32", 0, 4⟩, ⟨1, "Unknown", "hzn", 4, 16⟩,
        ⟨2, "Gear", "u8", 16, 17⟩] [0xE8, 0x03, 0, 0, 1, 2, 3, 4, 5, 6, 7, 8, 9, 10, 11, 12, 3]
          = .ok st →
      ∀ T ∈ [(⟨0, "TimestampMS", "u32", 0, 4⟩ : Telemetry), ⟨1, "Unknown", "hzn", 4, 16⟩,
        ⟨2, "Gear", "u8", 16, 17⟩], T.dataType = "hzn" → ∀ v, (T.name, v) ∉ st.p.fields) ∧
    (∀ (i : Nat) (A : Telemetry), [(⟨0, "TimestampMS", "u32", 0, 4⟩ : Telemetry), ⟨1, "Unknown", "hzn", 4, 16⟩,
        ⟨2, "Gear", "u8", 16, 17⟩][i]? = some A → A.dataType = "hzn" →
      A.endOffset = A.startOffset + 12 ∧
      ∀ (j : Nat) (B : Telemetry), i < j → [(⟨0, "TimestampMS", "u32", 0, 4⟩ : Telemetry),
        ⟨1, "Unknown", "hzn", 4, 16⟩, ⟨2, "Gear", "u8", 16, 17⟩][j]? = some B →
        A.startOffset + 12 ≤ B.startOffset) ∧
    (schemaSpan [⟨0, "TimestampMS", "u32", 0, 4⟩, ⟨1, "Unknown", "hzn", 4, 16⟩,
        ⟨2, "Gear", "u8", 16, 17⟩] ≤
        receivedLength [0xE8, 0x03, 0, 0, 1, 2, 3, 4, 5, 6, 7, 8, 9, 10, 11, 12, 3] →
      (∀ T ∈ [(⟨0, "TimestampMS", "u32", 0, 4⟩ : Telemetry), ⟨1, "Unknown", "hzn", 4, 16⟩,
        ⟨2, "Gear", "u8", 16, 17⟩], (T.name = "TimestampMS" ∨ T.name = "CurrentEngineRpm") →
        4 ≤ T.endOffset - T.startOffset) →
      ∃ st, decode [⟨0, "TimestampMS", "u32", 0, 4⟩, ⟨1, "Unknown", "hzn", 4, 16⟩,
        ⟨2, "Gear", "u8", 16, 17⟩]
        [0xE8, 0x03, 0, 0, 1, 2, 3, 4, 5, 6, 7, 8, 9, 10, 11, 12, 3] = .ok st) :=
  hzn_not_emitted ["u32 TimestampMS", "hzn Unknown", "u8 Gear"]
    [⟨0, "TimestampMS", "u32", 0, 4⟩, ⟨1, "Unknown", "hzn", 4, 16⟩, ⟨2, "Gear", "u8", 16, 17⟩]
    [0xE8, 0x03, 0, 0, 1, 2, 3, 4, 5, 6, 7, 8, 9, 10, 11, 12, 3] (by decide) (by decide)

/-- C16: compiling the lines `u32 TimestampMS`, `f32 CurrentEngineRpm`, `u8 Gear` and decoding
the packet `E8 03 00 00 | 00 00 80 3F | 03` yields exactly the fields `TimestampMS = 1000`
(`uint32`), `CurrentEngineRpm` with bits `0x3F800000`, which is 1.0 (`float32`), `Gear = 3`
(`uint8`), the verdict valid, and the event time 1000 ms (`1000 * time.Millisecond`
nanoseconds) after the Unix epoch; `readForzaData` then writes that one point. -/
theorem end_to_end_scenario :
    compile scenarioLines = .ok [scenarioTimestamp, scenarioRpm, scenarioGear] ∧
    decode [scenarioTimestamp, scenarioRpm, scenarioGear] scenarioPacket =
      .ok ⟨⟨"stat", some (1000 * timeMillisecond),
        [("TimestampMS", .uint32 1000), ("CurrentEngineRpm", .float32 0x3F800000),
          ("Gear", .uint8 3)]⟩, 0x3F800000⟩ ∧
    float32Value 0x3F800000 = some 1 ∧
    DecodeState.valid ⟨⟨"stat", some (1000 * timeMillisecond),
        [("TimestampMS", .uint32 1000), ("CurrentEngineRpm", .float32 0x3F800000),
          ("Gear", .uint8 3)]⟩, 0x3F800000⟩ = true ∧
    readForzaData [scenarioTimestamp, scenarioRpm, scenarioGear] scenarioPacket
        1700000000000000000 [] =
      .ok [⟨"stat", some 1700000000000000000,
        [("TimestampMS", .uint32 1000), ("CurrentEngineRpm", .float32 0x3F800000),
          ("Gear", .uint8 3)]⟩] := by
  refine ⟨by decide, by decide!, ?_, by decide, by decide!⟩
  norm_num [float32Value]

/-- C17: with the record sink as the list of written points, one call of `readForzaData` on any
schema and datagram does one of three things: it panics during decoding and writes nothing; or
the sample is invalid (`currentEngineRpm == 0`) and the sink is returned unchanged; or the
sample is valid and exactly one point, the decoded point stamped with `time.Now()`, is appended
to the sink. -/
theorem sink_effect (telemArray : List Telemetry) (datagram : List Byte) (now : Int)
    (sink : List Point) :
    (∃ e, decode telemArray datagram = .error e ∧
      readForzaData telemArray datagram now sink = .error e) ∨
    (∃ st, decode telemArray datagram = .ok st ∧ st.valid = false ∧
      float32EqZero st.currentEngineRpm = true ∧
      readForzaData telemArray datagram now sink = .ok sink) ∨
    (∃ st, decode telemArray datagram = .ok st ∧ st.valid = true ∧
      float32EqZero st.currentEngineRpm = false ∧
      readForzaData telemArray datagram now sink = .ok (sink ++ [st.p.SetTime now]) ∧
      (sink ++ [st.p.SetTime now]).length = sink.length + 1) := by
  cases hd : decode telemArray datagram with
  | error e =>
    left
    exact ⟨e, rfl, by unfold readForzaData; rw [hd]⟩
  | ok st =>
    right
    have hr := readForzaData_of_decode telemArray datagram st hd now sink
    cases hv : st.valid with
    | false =>
      left
      refine ⟨st, rfl, hv, ?_, by rw [hr, hv]; simp⟩
      simpa [DecodeState.valid] using hv
    | true =>
      right
      refine ⟨st, rfl, hv, ?_, by rw [hr, hv]; simp, by simp⟩
      simpa [DecodeState.valid] using hv

/-! ## When the loop panics -/

theorem fieldData_eq (datagram : List Byte) (T : Telemetry) :
    fieldData (receiveBuffer datagram) (receivedLength datagram) T =
      if T.startOffset ≤ T.endOffset ∧ T.endOffset ≤ bufferSize then
        .ok ⟨(receiveBuffer datagram).arr.drop T.startOffset, T.endOffset - T.startOffset⟩
      else .error .sliceBoundsOutOfRange := by
  have hlen := receiveBuffer_length datagram
  have hn := receivedLength_le datagram
  simp only [fieldData, GoSlice.slice, GoSlice.cap, hlen, Nat.zero_le, hn, and_self, if_true,
    List.drop_zero, Nat.sub_zero, List.length_drop]

theorem reservedStep_short (st : DecodeState) (T : Telemetry) (A : List Byte) (len : Nat)
    (hn : T.name = "TimestampMS" ∨ T.name = "CurrentEngineRpm") (h4 : len < 4) :
    reservedStep st T ⟨A, len⟩ = .error .indexOutOfRange := by
  unfold reservedStep
  rcases hn with hn | hn
  · simp only [hn, if_true, uint32LE_short A len h4]
  · have h1 : ¬ T.name = "TimestampMS" := by rw [hn]; decide
    rw [if_neg h1, if_pos hn]
    simp only [Float32frombytes, uint32LE_short A len h4]

theorem decodeField_ok_inv (datagram : List Byte) (st st1 : DecodeState) (T : Telemetry)
    (h : decodeField (receiveBuffer datagram) (receivedLength datagram) st T = .ok st1) :
    T.startOffset ≤ T.endOffset ∧ T.endOffset ≤ bufferSize ∧
      ((T.name = "TimestampMS" ∨ T.name = "CurrentEngineRpm") →
        4 ≤ T.endOffset - T.startOffset) := by
  unfold decodeField at h
  rw [fieldData_eq] at h
  by_cases hfit : T.startOffset ≤ T.endOffset ∧ T.endOffset ≤ bufferSize
  · refine ⟨hfit.1, hfit.2, ?_⟩
    intro hn
    by_contra hlt
    rw [if_pos hfit] at h
    have hs := reservedStep_short st T ((receiveBuffer datagram).arr.drop T.startOffset)
      (T.endOffset - T.startOffset) hn (by omega)
    simp only [hs] at h
    cases h
  · rw [if_neg hfit] at h
    cases h

theorem decodeLoop_ok_inv (datagram : List Byte) (arr : List Telemetry) :
    ∀ (st st1 : DecodeState),
      decodeLoop (receiveBuffer datagram) (receivedLength datagram) arr st = .ok st1 →
      ∀ T ∈ arr, T.startOffset ≤ T.endOffset ∧ T.endOffset ≤ bufferSize ∧
        ((T.name = "TimestampMS" ∨ T.name = "CurrentEngineRpm") →
          4 ≤ T.endOffset - T.startOffset) := by
  induction arr with
  | nil => intro st st1 _ T hT; cases hT
  | cons U rest ih =>
    intro st st1 h T hT
    simp only [decodeLoop] at h
    split at h
    · cases h
    · rename_i st0 hfield
      rcases List.mem_cons.mp hT with e | e
      · rw [e]; exact decodeField_ok_inv datagram st st0 U hfield
      · exact ih st0 st1 h T e

theorem schemaSpan_le_of_fields (arr : List Telemetry) (bound : Nat)
    (h : ∀ T ∈ arr, T.endOffset ≤ bound) : schemaSpan arr ≤ bound := by
  unfold schemaSpan
  cases hl : arr.getLast? with
  | none => exact Nat.zero_le _
  | some T => exact h T (List.mem_of_getLast?_eq_some hl)

/-- A compiled schema whose span fits the buffer and whose reserved-name fields are at least 4
bytes wide is decoded without a panic, whatever the received length. -/
theorem decode_compiled_of_span (lines : List String) (telemArray : List Telemetry)
    (datagram : List Byte) (hc : compile lines = .ok telemArray)
    (hspan : schemaSpan telemArray ≤ bufferSize)
    (hres : ∀ T ∈ telemArray, (T.name = "TimestampMS" ∨ T.name = "CurrentEngineRpm") →
      4 ≤ T.endOffset - T.startOffset) :
    decode telemArray datagram =
      .ok (telemArray.foldl (fieldStep (receiveBuffer datagram).arr) DecodeState.init) := by
  apply decodeLoop_ok
  intro T hT
  obtain ⟨h1, h2, h3⟩ := compile_fields_fit lines telemArray hc T hT
  exact ⟨h2, by omega, h1, hres T hT⟩

/-- C18: for every compiled schema and every datagram (its received length is at most 1500),
the decode loop completes without a slice or index panic if and only if the schema's span is at
most 1500 and every field named `TimestampMS` or `CurrentEngineRpm` is at least 4 bytes wide;
so a schema that gives one of the two reserved names the kind `u16`, `u8` or `s8` makes decoding
fail on every packet. -/
theorem decode_safety (lines : List String) (telemArray : List Telemetry)
    (datagram : List Byte) (hc : compile lines = .ok telemArray) :
    receivedLength datagram ≤ 1500 ∧
    ((∃ st, decode telemArray datagram = .ok st) ↔
      (schemaSpan telemArray ≤ 1500 ∧
        ∀ T ∈ telemArray, (T.name = "TimestampMS" ∨ T.name = "CurrentEngineRpm") →
          4 ≤ T.endOffset - T.startOffset)) ∧
    (∀ T ∈ telemArray, (T.name = "TimestampMS" ∨ T.name = "CurrentEngineRpm") →
      (T.dataType = "u16" ∨ T.dataType = "u8" ∨ T.dataType = "s8") →
      ∃ e, decode telemArray datagram = .error e) := by
  have hiff : (∃ st, decode telemArray datagram = .ok st) ↔
      (schemaSpan telemArray ≤ 1500 ∧
        ∀ T ∈ telemArray, (T.name = "TimestampMS" ∨ T.name = "CurrentEngineRpm") →
          4 ≤ T.endOffset - T.startOffset) := by
    constructor
    · rintro ⟨st, hst⟩
      have hinv := decodeLoop_ok_inv datagram telemArray _ st hst
      exact ⟨schemaSpan_le_of_fields telemArray 1500 (fun T hT => (hinv T hT).2.1),
        fun T hT => (hinv T hT).2.2⟩
    · rintro ⟨hspan, hres⟩
      exact ⟨_, decode_compiled_of_span lines telemArray datagram hc hspan hres⟩
  refine ⟨receivedLength_le datagram, hiff, ?_⟩
  intro T hT hn hk
  cases hd : decode telemArray datagram with
  | error e => exact ⟨e, rfl⟩
  | ok st =>
    exfalso
    have h4 := (hiff.mp ⟨st, hd⟩).2 T hT hn
    obtain ⟨hw, _, _⟩ := compile_fields_fit lines telemArray hc T hT
    rcases hk with h | h | h <;> rw [h] at hw <;> simp [typeWidth] at hw <;> omega

/-- C18 at the scenario schema and the scenario packet. -/
theorem decode_safety_witness :
    receivedLength scenarioPacket ≤ 1500 ∧
    ((∃ st, decode [scenarioTimestamp, scenarioRpm, scenarioGear] scenarioPacket = .ok st) ↔
      (schemaSpan [scenarioTimestamp, scenarioRpm, scenarioGear] ≤ 1500 ∧
        ∀ T ∈ [scenarioTimestamp, scenarioRpm, scenarioGear],
          (T.name = "TimestampMS" ∨ T.name = "CurrentEngineRpm") →
            4 ≤ T.endOffset - T.startOffset)) ∧
    (∀ T ∈ [scenarioTimestamp, scenarioRpm, scenarioGear],
      (T.name = "TimestampMS" ∨ T.name = "CurrentEngineRpm") →
      (T.dataType = "u16" ∨ T.dataType = "u8" ∨ T.dataType = "s8") →
      ∃ e, decode [scenarioTimestamp, scenarioRpm, scenarioGear] scenarioPacket = .error e) :=
  decode_safety scenarioLines [scenarioTimestamp, scenarioRpm, scenarioGear] scenarioPacket
    (by decide)

theorem receiveBuffer_zeroPadded (datagram : List Byte) :
    (receiveBuffer (zeroPadded datagram)).arr = (receiveBuffer datagram).arr := by
  unfold receiveBuffer receivedLength zeroPadded
  simp only
  by_cases h : datagram.length ≤ bufferSize
  · have h1 : List.take bufferSize (datagram ++ List.replicate (bufferSize - datagram.length) 0)
        = datagram ++ List.replicate (bufferSize - datagram.length) 0 := by
      apply List.take_of_length_le
      simp only [List.length_append, List.length_replicate]
      omega
    have h2 : List.take bufferSize datagram = datagram := List.take_of_length_le h
    rw [h1, h2]
    simp only [List.length_append, List.length_replicate]
    have h3 : bufferSize - min (datagram.length + (bufferSize - datagram.length)) bufferSize = 0 := by
      omega
    have h4 : bufferSize - min datagram.length bufferSize = bufferSize - datagram.length := by
      omega
    rw [h3, h4]
    simp
  · have h0 : bufferSize - datagram.length = 0 := by omega
    rw [h0]
    simp

/-- C19: for every compiled schema whose span is at most 1500 and whose reserved-name fields
are at least 4 bytes wide, and every datagram, decoding the datagram and decoding it extended
with zero bytes up to 1500 bytes complete with the same state: the same point (fields and event
time) and the same liveness value, hence the same verdict and the same effect on the sink. -/
theorem zero_padding (lines : List String) (telemArray : List Telemetry)
    (datagram : List Byte) (hc : compile lines = .ok telemArray)
    (hspan : schemaSpan telemArray ≤ 1500)
    (hres : ∀ T ∈ telemArray, (T.name = "TimestampMS" ∨ T.name = "CurrentEngineRpm") →
      4 ≤ T.endOffset - T.startOffset) :
    ∃ st, decode telemArray datagram = .ok st ∧
      decode telemArray (zeroPadded datagram) = .ok st ∧
      (zeroPadded datagram).length = max datagram.length 1500 ∧
      ∀ now sink, readForzaData telemArray (zeroPadded datagram) now sink =
        readForzaData telemArray datagram now sink := by
  have h1 := decode_compiled_of_span lines telemArray datagram hc hspan hres
  have h2 := decode_compiled_of_span lines telemArray (zeroPadded datagram) hc hspan hres
  rw [receiveBuffer_zeroPadded] at h2
  refine ⟨_, h1, h2, ?_, ?_⟩
  · simp only [zeroPadded, List.length_append, List.length_replicate, bufferSize]
    omega
  · intro now sink
    rw [readForzaData_of_decode _ _ _ h1, readForzaData_of_decode _ _ _ h2]

/-- C19 at the scenario schema and the 4-byte datagram `E8 03 00 00`. -/
theorem zero_padding_witness :
    ∃ st, decode [scenarioTimestamp, scenarioRpm, scenarioGear] [0xE8, 0x03, 0x00, 0x00] =
        .ok st ∧
      decode [scenarioTimestamp, scenarioRpm, scenarioGear]
        (zeroPadded [0xE8, 0x03, 0x00, 0x00]) = .ok st ∧
      (zeroPadded [0xE8, 0x03, 0x00, 0x00]).length =
        max ([0xE8, 0x03, 0x00, 0x00] : List Byte).length 1500 ∧
      ∀ now sink, readForzaData [scenarioTimestamp, scenarioRpm, scenarioGear]
          (zeroPadded [0xE8, 0x03, 0x00, 0x00]) now sink =
        readForzaData [scenarioTimestamp, scenarioRpm, scenarioGear]
          [0xE8, 0x03, 0x00, 0x00] now sink :=
  zero_padding scenarioLines [scenarioTimestamp, scenarioRpm, scenarioGear]
    [0xE8, 0x03, 0x00, 0x00] (by decide) (by decide) (by decide)

/-! ## The liveness check on bytes -/

theorem fieldBytes_four (datagram : List Byte) (F : Telemetry)
    (hw : F.endOffset - F.startOffset = 4) (hlen : F.endOffset ≤ datagram.length) :
    ∃ b0 b1 b2 b3, fieldBytes datagram F = [b0, b1, b2, b3] := by
  have hl : (fieldBytes datagram F).length = 4 := by
    simp only [fieldBytes, List.length_take, List.length_drop]
    omega
  match hb : fieldBytes datagram F, hl with
  | [b0, b1, b2, b3], _ => exact ⟨b0, b1, b2, b3, rfl⟩

theorem littleEndian_four_mod (b0 b1 b2 b3 : Byte) :
    littleEndian [b0, b1, b2, b3] % 2 ^ 31 = 0 ↔
      ([b0, b1, b2, b3] = [0, 0, 0, 0] ∨ [b0, b1, b2, b3] = [0, 0, 0, 0x80]) := by
  have h0 := b0.isLt
  have h1 := b1.isLt
  have h2 := b2.isLt
  have h3 := b3.isLt
  rw [littleEndian_four]
  simp only [List.cons.injEq, and_true, Fin.ext_iff]
  constructor
  · intro h
    have e0 : b0.val = 0 := by omega
    have e1 : b1.val = 0 := by omega
    have e2 : b2.val = 0 := by omega
    have e3 : b3.val = 0 ∨ b3.val = 128 := by omega
    rcases e3 with e3 | e3
    · left; exact ⟨e0, e1, e2, e3⟩
    · right; exact ⟨e0, e1, e2, e3⟩
  · rintro (⟨e0, e1, e2, e3⟩ | ⟨e0, e1, e2, e3⟩)
    · rw [e0, e1, e2, e3]; rfl
    · rw [e0, e1, e2, e3]; rfl

theorem float32EqZero_false_of_denormal (bits : Nat) (h : float32IsDenormal bits = true) :
    float32EqZero bits = false := by
  unfold float32IsDenormal at h
  simp only [Bool.and_eq_true, beq_iff_eq, bne_iff_ne, ne_eq] at h
  unfold float32EqZero
  have : bits % 2 ^ 31 ≠ 0 := by omega
  simpa using this

theorem float32EqZero_false_of_nan (bits : Nat) (h : float32IsNaN bits = true) :
    float32EqZero bits = false := by
  unfold float32IsNaN at h
  simp only [Bool.and_eq_true, beq_iff_eq, bne_iff_ne, ne_eq] at h
  unfold float32EqZero
  have : bits % 2 ^ 31 ≠ 0 := by omega
  simpa using this

/-- C20 (amended): for every compiled schema with exactly one field named `CurrentEngineRpm`,
4 bytes wide, in which every field named `TimestampMS` is at least 4 bytes wide, and every
received packet at least as long as the span, decoding completes and the sample is dropped
exactly when the field's 4 bytes are `00 00 00 00` or `00 00 00 80`, that is when their
little-endian value with the top bit cleared is 0; every other bit pattern, NaNs and denormals
included, is written to the sink. -/
theorem liveness_bits (lines : List String) (before after : List Telemetry) (F : Telemetry)
    (datagram : List Byte)
    (hc : compile lines = .ok (before ++ F :: after))
    (hF : F.name = "CurrentEngineRpm") (hw : F.endOffset - F.startOffset = 4)
    (hb : ∀ T ∈ before, T.name ≠ "CurrentEngineRpm")
    (ha : ∀ T ∈ after, T.name ≠ "CurrentEngineRpm")
    (hts : ∀ T ∈ before ++ F :: after, T.name = "TimestampMS" →
      4 ≤ T.endOffset - T.startOffset)
    (hlen : schemaSpan (before ++ F :: after) ≤ receivedLength datagram) :
    ∃ st, decode (before ++ F :: after) datagram = .ok st ∧
      st.currentEngineRpm = littleEndian (fieldBytes datagram F) ∧
      (st.valid = false ↔
        (fieldBytes datagram F = [0, 0, 0, 0] ∨ fieldBytes datagram F = [0, 0, 0, 0x80])) ∧
      (st.valid = false ↔ st.currentEngineRpm % 2 ^ 31 = 0) ∧
      (float32IsNaN st.currentEngineRpm = true → st.valid = true) ∧
      (float32IsDenormal st.currentEngineRpm = true → st.valid = true) ∧
      ∀ now sink, readForzaData (before ++ F :: after) datagram now sink =
        .ok (if st.valid = true then sink ++ [st.p.SetTime now] else sink) := by
  have hFmem : F ∈ before ++ F :: after := by simp
  have hres : ∀ T ∈ before ++ F :: after,
      (T.name = "TimestampMS" ∨ T.name = "CurrentEngineRpm") →
        4 ≤ T.endOffset - T.startOffset := by
    intro T hT hn
    rcases hn with hn | hn
    · exact hts T hT hn
    · rcases List.mem_append.mp hT with h1 | h1
      · exact absurd hn (hb T h1)
      · rcases List.mem_cons.mp h1 with h2 | h2
        · rw [h2, hw]
        · exact absurd hn (ha T h2)
  have hd := decode_compiled lines _ datagram hc hlen hres
  have hfit := (compile_fields_fit lines _ hc F hFmem).2.2
  have hrecv : F.endOffset ≤ receivedLength datagram := by omega
  have hdl : F.endOffset ≤ datagram.length := by
    unfold receivedLength at hrecv
    omega
  have hrpm : ((before ++ F :: after).foldl (fieldStep (receiveBuffer datagram).arr)
      DecodeState.init).currentEngineRpm = littleEndian (fieldBytes datagram F) := by
    rw [List.foldl_append, List.foldl_cons, foldl_fieldStep_rpm _ after _ ha, fieldStep_rpm,
      if_pos hF, take4_fieldBytes _ F hw, fieldBytes_received datagram F hrecv]
  have hvalid : ∀ st : DecodeState, (st.valid = false ↔ st.currentEngineRpm % 2 ^ 31 = 0) := by
    intro st
    simp [DecodeState.valid, float32EqZero]
  obtain ⟨b0, b1, b2, b3, hbytes⟩ := fieldBytes_four datagram F hw hdl
  refine ⟨_, hd, hrpm, ?_, hvalid _, ?_, ?_,
    fun now sink => readForzaData_of_decode _ _ _ hd now sink⟩
  · rw [hvalid, hrpm, hbytes]
    exact littleEndian_four_mod b0 b1 b2 b3
  · intro hnan
    unfold DecodeState.valid
    rw [float32EqZero_false_of_nan _ hnan]
    rfl
  · intro hden
    unfold DecodeState.valid
    rw [float32EqZero_false_of_denormal _ hden]
    rfl

/-- C20 (amended) at the scenario schema and the scenario packet. -/
theorem liveness_bits_witness :
    ∃ st, decode ([scenarioTimestamp] ++ scenarioRpm :: [scenarioGear]) scenarioPacket = .ok st ∧
      st.currentEngineRpm = littleEndian (fieldBytes scenarioPacket scenarioRpm) ∧
      (st.valid = false ↔
        (fieldBytes scenarioPacket scenarioRpm = [0, 0, 0, 0] ∨
          fieldBytes scenarioPacket scenarioRpm = [0, 0, 0, 0x80])) ∧
      (st.valid = false ↔ st.currentEngineRpm % 2 ^ 31 = 0) ∧
      (float32IsNaN st.currentEngineRpm = true → st.valid = true) ∧
      (float32IsDenormal st.currentEngineRpm = true → st.valid = true) ∧
      ∀ now sink,
        readForzaData ([scenarioTimestamp] ++ scenarioRpm :: [scenarioGear]) scenarioPacket
          now sink = .ok (if st.valid = true then sink ++ [st.p.SetTime now] else sink) :=
  liveness_bits scenarioLines [scenarioTimestamp] [scenarioGear] scenarioRpm scenarioPacket
    (by decide) (by decide) (by decide) (by decide) (by decide) (by decide) (by decide)

/-- C20 as stated fails: the schema `u16 TimestampMS`, `f32 CurrentEngineRpm` has exactly one
field named `CurrentEngineRpm`, 4 bytes wide, and the 6-byte packet `10 00 | 00 00 C0 7F` covers
its span with a NaN pattern in the field, which is neither `00 00 00 00` nor `00 00 00 80`; yet
the sample is not forwarded: `Uint32` panics on the 2-byte slice of `TimestampMS`. -/
theorem liveness_bits_counterexample :
    compile ["u16 TimestampMS", "f32 CurrentEngineRpm"] =
      .ok [⟨0, "TimestampMS", "u16", 0, 2⟩, ⟨1, "CurrentEngineRpm", "f32", 2, 6⟩] ∧
    schemaSpan [⟨0, "TimestampMS", "u16", 0, 2⟩, ⟨1, "CurrentEngineRpm", "f32", 2, 6⟩] ≤
      receivedLength [0x10, 0x00, 0x00, 0x00, 0xC0, 0x7F] ∧
    fieldBytes [0x10, 0x00, 0x00, 0x00, 0xC0, 0x7F] ⟨1, "CurrentEngineRpm", "f32", 2, 6⟩ =
      [0x00, 0x00, 0xC0, 0x7F] ∧
    float32IsNaN (littleEndian [0x00, 0x00, 0xC0, 0x7F]) = true ∧
    decode [⟨0, "TimestampMS", "u16", 0, 2⟩, ⟨1, "CurrentEngineRpm", "f32", 2, 6⟩]
      [0x10, 0x00, 0x00, 0x00, 0xC0, 0x7F] = .error .indexOutOfRange ∧
    readForzaData [⟨0, "TimestampMS", "u16", 0, 2⟩, ⟨1, "CurrentEngineRpm", "f32", 2, 6⟩]
      [0x10, 0x00, 0x00, 0x00, 0xC0, 0x7F] 0 [] = .error .indexOutOfRange := by
  refine ⟨by decide, by decide, by decide, by decide, by decide!, by decide!⟩

end Forza
